import Mathlib

/-!
# Verification of the auth frontend's session, storage and encryption layer

This file is a shallow embedding, in Lean 4, of the parts of the
`auth_frontend` repository that its specification talks about:

* `src/utils/encryption.ts` — `encryptData` / `decryptData` built on
  CryptoJS `AES.encrypt` / `AES.decrypt` (OpenSSL salted format, CBC mode,
  PKCS7 padding, Base64 transport encoding, UTF-8 plaintext encoding,
  `JSON.stringify` / `JSON.parse` serialization).
* `src/utils/secureStorage.ts` — the secure-ls backed session store
  (`setToken`/`getToken`/`removeToken`, `setUser`/`getUser`/`removeUser`)
  together with the plain `localStorage` entries used elsewhere.
* `src/store/slices/authSlice.ts` — the Redux slice: thunks
  (`loginUser`, `resetPassword`, …), the synchronous reducers (`logout`,
  `loadUserFromStorage`) and the `extraReducers` transition table.
* `src/services/api.ts` — the axios request interceptor (bearer header)
  and response interceptor (401 handling).

Pure functions of the source become Lean functions; the browser storage
becomes an explicit `Storage` record threaded through the operations;
fallible operations return `Option`.  Library primitives that the source
merely calls (the AES block transform of CryptoJS) are kept as an explicit
parameter (`EvpCipher`) with the properties the library guarantees, while
every data-format layer around them (Base64, UTF-8, PKCS7, CBC chaining,
the OpenSSL `Salted__` envelope, JSON) is implemented concretely and its
round-trip properties are proved, not assumed.
-/

/-! ## Data model of the authentication state

The `User` record below embeds the `User` interface of `types.ts`
field-for-field:
`{id, name, email, provider ∈ {local, google}, profilePicture?,
emailVerified, createdAt, updatedAt, passwordUpdatedAt?}`.  No claim in
this development depends on the particular fields: the state machine
treats the user record as opaque data. -/

inductive Provider where
  | local
  | google
deriving DecidableEq, Repr

/-- The user record (`User` in `types.ts`): optional TypeScript fields
become `Option`, the `'local' | 'google'` union becomes `Provider`. -/
structure User where
  id : Nat
  name : String
  email : String
  provider : Provider
  profilePicture : Option String
  emailVerified : Bool
  createdAt : String
  updatedAt : String
  passwordUpdatedAt : Option String
deriving DecidableEq, Repr

/-- The in-memory authentication state, one field per field of `AuthState`
in `authSlice.ts` (`user`, `token`, `isAuthenticated`, `isLoading`,
`error`, `users`, `forgotPasswordMessage`, `resetPasswordMessage`). -/
structure AuthState where
  user : Option User
  token : Option String
  isAuthenticated : Bool
  isLoading : Bool
  error : Option String
  users : List User
  forgotPasswordMessage : Option String
  resetPasswordMessage : Option String
deriving DecidableEq, Repr

/-- The `initialState` object of `authSlice.ts` (lines 171-187). -/
def initialState : AuthState where
  user := none
  token := none
  isAuthenticated := false
  isLoading := false
  error := none
  users := []
  forgotPasswordMessage := none
  resetPasswordMessage := none

/-- The browser storage visible to this code base, one field per key it
uses.  `authToken` and `userData` are the secure-ls entries
`STORAGE_KEYS.TOKEN = 'auth_token'` and `STORAGE_KEYS.USER = 'user_data'`
of `secureStorage.ts` (a field holds the decodable content of the entry;
an entry that is absent, or present but undecodable, is `none`, which is
how `secureStorage.ts` and the spec treat both cases).  `plainToken` and
`plainUser` are the plain `localStorage` keys `'token'` and `'user'` read
and written by `api.ts`.  `persistRoot` and `persistAuth` are the
redux-persist envelope entries `'persist:root'` and `'persist:auth'`. -/
structure Storage where
  authToken : Option String
  userData : Option User
  plainToken : Option String
  plainUser : Option String
  persistRoot : Option String
  persistAuth : Option String
deriving DecidableEq, Repr

/-- A storage with no entries at all. -/
def Storage.empty : Storage where
  authToken := none
  userData := none
  plainToken := none
  plainUser := none
  persistRoot := none
  persistAuth := none

namespace secureStorage

/-- `SecureStorageService.setToken` (secureStorage.ts lines 60-69), on its
normal (non-throwing) path: `this.storage.set(STORAGE_KEYS.TOKEN, token)`. -/
def setToken (t : String) (st : Storage) : Storage :=
  { st with authToken := some t }

/-- `SecureStorageService.getToken` (secureStorage.ts lines 71-80):
`const token = this.storage.get(STORAGE_KEYS.TOKEN); return token || null;`
— the JavaScript `token || null` maps the falsy empty string to `null` as
well, which the model makes explicit. -/
def getToken (st : Storage) : Option String :=
  match st.authToken with
  | some t => if t = "" then none else some t
  | none => none

/-- `SecureStorageService.removeToken` (secureStorage.ts lines 82-91):
`this.storage.remove(STORAGE_KEYS.TOKEN)`. -/
def removeToken (st : Storage) : Storage :=
  { st with authToken := none }

/-- `SecureStorageService.setUser` (secureStorage.ts lines 94-103). -/
def setUser (u : User) (st : Storage) : Storage :=
  { st with userData := some u }

/-- `SecureStorageService.getUser` (secureStorage.ts lines 105-115):
`const user = this.storage.get(STORAGE_KEYS.USER); return user || null;` —
an object is never falsy, so the stored record is returned as-is. -/
def getUser (st : Storage) : Option User :=
  st.userData

/-- `SecureStorageService.removeUser` (secureStorage.ts lines 117-126). -/
def removeUser (st : Storage) : Storage :=
  { st with userData := none }

end secureStorage

/-! ## Gateway responses and async thunks

The response shapes of the Remote Auth Gateway (`ApiResponse<AuthResponse>`
in the source): `success`, optional `message`, optional `data` carrying a
user and a token. -/

/-- The `data` part of an `AuthResponse`: `{ user, token }`. -/
structure AuthData where
  user : User
  token : String
deriving DecidableEq, Repr

/-- An `ApiResponse<AuthResponse>` as delivered by the gateway. -/
structure ApiResponsePayload where
  success : Bool
  message : Option String
  data : Option AuthData
deriving DecidableEq, Repr

/-- The storage side effect of the `loginUser` thunk
(authSlice.ts lines 68-86), given the response the gateway delivered:
`if (response.success && response.data?.token) { secureStorage.setToken(...);
secureStorage.setUser(...); }` — `response.data?.token` is truthy exactly
when `data` is present and its token is a non-empty string.  The thunk
then fulfils with `response.data!`. -/
def loginUserThunk (resp : ApiResponsePayload) (st : Storage) :
    Storage × Option AuthData :=
  let st' :=
    if resp.success then
      match resp.data with
      | some d =>
          if d.token = "" then st
          else secureStorage.setUser d.user (secureStorage.setToken d.token st)
      | none => st
    else st
  (st', resp.data)

/-- The storage side effect of the `resetPassword` thunk
(authSlice.ts lines 104-116): the thunk only forwards the gateway response
(`const response = await authAPI.resetPassword(resetData); return response;`)
and performs no storage operation at all. -/
def resetPasswordThunk (resp : ApiResponsePayload) (st : Storage) :
    Storage × ApiResponsePayload :=
  (st, resp)

/-! ## Reducers

Redux Toolkit reducers mutate an Immer draft; each is embedded as a pure
function from the previous state (plus action payload) to the next state. -/

/-- JavaScript `payload || defaultMessage`: the default is used when the
payload is absent or the falsy empty string. -/
def orDefault (p : Option String) (d : String) : String :=
  match p with
  | some m => if m = "" then d else m
  | none => d

/-- The `logout` reducer (authSlice.ts lines 200-219) together with its
storage side effects: `secureStorage.removeToken(); secureStorage.removeUser();
localStorage.removeItem('persist:root'); localStorage.removeItem('persist:auth');`
then resets `user`, `token`, `isAuthenticated`, `error`, `users`,
`forgotPasswordMessage`, `resetPasswordMessage`.  It does not touch
`isLoading`. -/
def logout (s : AuthState) (st : Storage) : AuthState × Storage :=
  let st' := secureStorage.removeUser (secureStorage.removeToken st)
  let st'' := { st' with persistRoot := none, persistAuth := none }
  ({ s with
      user := none
      token := none
      isAuthenticated := false
      error := none
      users := []
      forgotPasswordMessage := none
      resetPasswordMessage := none }, st'')

/-- The `loadUserFromStorage` reducer (authSlice.ts lines 239-254): reads
token and user from the secure store and populates the session only when
both are present (`if (token && user)`).  The `try` block around the three
assignments cannot throw, so the `catch` branch that would clear storage
is unreachable and the storage is returned unchanged. -/
def loadUserFromStorage (s : AuthState) (st : Storage) : AuthState × Storage :=
  let token := secureStorage.getToken st
  let user := secureStorage.getUser st
  match token, user with
  | some t, some u =>
      ({ s with user := some u, token := some t, isAuthenticated := true }, st)
  | _, _ => (s, st)

/-- The `loginUser.rejected` case (authSlice.ts lines 306-312):
`isLoading = false; error = action.payload || 'Login failed';
user = null; token = null; isAuthenticated = false;`. -/
def loginUserRejected (s : AuthState) (payload : Option String) : AuthState :=
  { s with
      isLoading := false
      error := some (orDefault payload "Login failed")
      user := none
      token := none
      isAuthenticated := false }

/-- The `forgotPassword.rejected` case (authSlice.ts lines 327-331):
`isLoading = false; error = action.payload || 'Failed to send reset email';
forgotPasswordMessage = null;`. -/
def forgotPasswordRejected (s : AuthState) (payload : Option String) : AuthState :=
  { s with
      isLoading := false
      error := some (orDefault payload "Failed to send reset email")
      forgotPasswordMessage := none }

/-- The `resetPassword.fulfilled` case (authSlice.ts lines 341-352):
`isLoading = false; resetPasswordMessage = action.payload.message;
error = null;` and, when `action.payload.data` is present,
`user = data.user; token = data.token; isAuthenticated = true;`. -/
def resetPasswordFulfilled (s : AuthState) (payload : ApiResponsePayload) :
    AuthState :=
  let s' := { s with
      isLoading := false
      resetPasswordMessage := payload.message
      error := none }
  match payload.data with
  | some d =>
      { s' with user := some d.user, token := some d.token, isAuthenticated := true }
  | none => s'

/-! ## The axios interceptors (`api.ts`) -/

/-- The request interceptor (api.ts lines 31-45):
`const token = localStorage.getItem('token'); if (token && config.headers)
config.headers.Authorization = Bearer token;` — it reads the plain
`localStorage` key `'token'`, not the secure session store.  The argument
and result are the `Authorization` header slot of the request. -/
def requestInterceptor (st : Storage) (authorization : Option String) :
    Option String :=
  match st.plainToken with
  | some t => if t = "" then authorization else some ("Bearer " ++ t)
  | none => authorization

/-- The response interceptor's error handler (api.ts lines 48-65): on a
401 status it runs `localStorage.removeItem('token');
localStorage.removeItem('user'); window.location.href = '/login';`.  The
result pairs the storage with the forced navigation target, if any. -/
def responseInterceptor (status : Nat) (st : Storage) :
    Storage × Option String :=
  if status = 401 then
    ({ st with plainToken := none, plainUser := none }, some "/login")
  else
    (st, none)

/-- A concrete user record for closed witness statements. -/
def demoUser : User where
  id := 1
  name := "Test User"
  email := "test@example.com"
  provider := Provider.local
  profilePicture := none
  emailVerified := true
  createdAt := "2024-01-01"
  updatedAt := "2024-01-01"
  passwordUpdatedAt := none

/-! ## Bytes -/

/-- Every entry of the list is an actual byte value. -/
def ByteOk (l : List Nat) : Prop := ∀ x ∈ l, x < 256

/-! ## UTF-8

CryptoJS's `enc.Utf8` converts between a JavaScript string and its UTF-8
bytes (`unescape(encodeURIComponent(str))` and back); `Utf8.stringify`
throws on malformed data, embedded here as `none`. -/

/-- UTF-8 encoding of one code point. -/
def utf8EncodeChar (c : Char) : List Nat :=
  let n := c.toNat
  if n < 128 then [n]
  else if n < 2048 then [192 + n / 64, 128 + n % 64]
  else if n < 65536 then [224 + n / 4096, 128 + n / 64 % 64, 128 + n % 64]
  else [240 + n / 262144, 128 + n / 4096 % 64, 128 + n / 64 % 64, 128 + n % 64]

/-- UTF-8 encoding of a string. -/
def utf8Encode (s : String) : List Nat :=
  (s.data.map utf8EncodeChar).flatten

/-- Whether a byte is a UTF-8 continuation byte (`10xxxxxx`). -/
def isCont (b : Nat) : Bool := b / 64 == 2

/-- UTF-8 decoding; `none` on malformed input (bad leading byte, missing
or malformed continuation bytes, overlong encoding, surrogate or
out-of-range code point).  A missing continuation byte reads as the
out-of-range value 256, which fails the `isCont` test, so a truncated
sequence is malformed like any other. -/
def utf8Decode : List Nat → Option (List Char)
  | [] => some []
  | b :: rest =>
    if b < 128 then
      (utf8Decode rest).map (fun cs => Char.ofNat b :: cs)
    else if b < 192 then none
    else if b < 224 then
      let b2 := rest.headD 256
      let n := (b - 192) * 64 + (b2 - 128)
      if isCont b2 ∧ 128 ≤ n then
        (utf8Decode rest.tail).map (fun cs => Char.ofNat n :: cs)
      else none
    else if b < 240 then
      let b2 := rest.headD 256
      let b3 := rest.getD 1 256
      let n := (b - 224) * 4096 + (b2 - 128) * 64 + (b3 - 128)
      if isCont b2 ∧ isCont b3 ∧ 2048 ≤ n ∧ (n < 55296 ∨ 57343 < n) then
        (utf8Decode (rest.drop 2)).map (fun cs => Char.ofNat n :: cs)
      else none
    else if b < 248 then
      let b2 := rest.headD 256
      let b3 := rest.getD 1 256
      let b4 := rest.getD 2 256
      let n := (b - 240) * 262144 + (b2 - 128) * 4096 + (b3 - 128) * 64 + (b4 - 128)
      if isCont b2 ∧ isCont b3 ∧ isCont b4 ∧ 65536 ≤ n ∧ n < 1114112 then
        (utf8Decode (rest.drop 3)).map (fun cs => Char.ofNat n :: cs)
      else none
    else none
termination_by l => l.length
decreasing_by all_goals (simp [List.length_tail, List.length_drop]) <;> omega

/-! ## JSON

`JSON.stringify` / `JSON.parse` over the model universe `Json`.  JSON
numbers are restricted to integers (the source stores no fractional
values; floating-point formatting is outside the embedding), object
fields are kept in order, and the parser — which only ever sees
`stringify` images or blobs that fail long before reaching it — accepts
the grammar `stringify` emits plus whitespace and the standard escapes;
it does not accept fractional/exponent number forms or lone-surrogate
escapes, which no `stringify` image contains. -/

inductive Json where
  | null
  | bool (b : Bool)
  | num (n : Int)
  | str (s : String)
  | arr (elements : List Json)
  | obj (fields : List (String × Json))

/-- Decimal digit character. -/
def digitChar (n : Nat) : Char := Char.ofNat (48 + n)

/-- Decimal digits of a natural number, most significant first. -/
def natDigits (n : Nat) : List Char :=
  if n < 10 then [digitChar n]
  else natDigits (n / 10) ++ [digitChar (n % 10)]
decreasing_by exact Nat.div_lt_self (by omega) (by omega)

/-- Decimal representation of an integer, as `JSON.stringify` emits it. -/
def intChars (i : Int) : List Char :=
  if i < 0 then '-' :: natDigits i.natAbs else natDigits i.toNat

/-- Lowercase hexadecimal digit. -/
def hexChar (n : Nat) : Char :=
  if n < 10 then Char.ofNat (48 + n) else Char.ofNat (87 + n)

/-- The escaping `JSON.stringify` applies inside string literals. -/
def escapeChar (c : Char) : List Char :=
  if c = '"' then ['\\', '"']
  else if c = '\\' then ['\\', '\\']
  else if c = '\n' then ['\\', 'n']
  else if c = '\r' then ['\\', 'r']
  else if c = '\t' then ['\\', 't']
  else if c.toNat = 8 then ['\\', 'b']
  else if c.toNat = 12 then ['\\', 'f']
  else if c.toNat < 32 then
    ['\\', 'u', '0', '0', hexChar (c.toNat / 16), hexChar (c.toNat % 16)]
  else [c]

/-- The characters of a JSON string literal (without the quotes). -/
def strBody (s : String) : List Char := (s.data.map escapeChar).flatten

mutual

/-- The characters `JSON.stringify` emits for a value. -/
def jsonChars : Json → List Char
  | .null => 'n' :: ['u', 'l', 'l']
  | .bool true => 't' :: ['r', 'u', 'e']
  | .bool false => 'f' :: ['a', 'l', 's', 'e']
  | .num i => intChars i
  | .str s => '"' :: (strBody s ++ ['"'])
  | .arr [] => ['[', ']']
  | .arr (e :: es) => '[' :: (jsonChars e ++ jsonCharsArr es)
  | .obj [] => ['\x7b', '\x7d']
  | .obj (f :: fs) => '\x7b' :: (fieldChars f ++ jsonCharsObj fs)

/-- Remaining elements of an array: each preceded by `,`, then `]`. -/
def jsonCharsArr : List Json → List Char
  | [] => [']']
  | e :: es => ',' :: (jsonChars e ++ jsonCharsArr es)

/-- One object field: quoted key, colon, value. -/
def fieldChars : String × Json → List Char
  | (k, v) => '"' :: (strBody k ++ ('"' :: ':' :: jsonChars v))

/-- Remaining fields of an object: each preceded by `,`, then the brace. -/
def jsonCharsObj : List (String × Json) → List Char
  | [] => ['\x7d']
  | f :: fs => ',' :: (fieldChars f ++ jsonCharsObj fs)

end

namespace JSON

/-- `JSON.stringify` over the model universe. -/
def stringify (v : Json) : String := String.mk (jsonChars v)

end JSON

/-- JSON whitespace. -/
def isWs (c : Char) : Bool := c = ' ' || c = '\n' || c = '\r' || c = '\t'

/-- Skip leading JSON whitespace. -/
def skipWs (l : List Char) : List Char := l.dropWhile isWs

/-- ASCII decimal digit test. -/
def isDigit (c : Char) : Bool := 48 ≤ c.toNat && c.toNat ≤ 57

/-- Value of a hexadecimal digit character. -/
def hexVal (c : Char) : Option Nat :=
  if 48 ≤ c.toNat ∧ c.toNat ≤ 57 then some (c.toNat - 48)
  else if 97 ≤ c.toNat ∧ c.toNat ≤ 102 then some (c.toNat - 87)
  else if 65 ≤ c.toNat ∧ c.toNat ≤ 70 then some (c.toNat - 55)
  else none

/-- Single-character JSON escapes. -/
def escDecode (e : Char) : Option Char :=
  if e = '"' then some '"'
  else if e = '\\' then some '\\'
  else if e = '/' then some '/'
  else if e = 'n' then some '\n'
  else if e = 'r' then some '\r'
  else if e = 't' then some '\t'
  else if e = 'b' then some (Char.ofNat 8)
  else if e = 'f' then some (Char.ofNat 12)
  else none

/-- Parse the body of a JSON string literal after the opening quote,
returning the decoded characters and the input after the closing quote.
A missing character reads as a default (`'*'`, not a hex digit and not a
valid single-character escape), so a truncated escape is malformed like
any other. -/
def pStrRest : List Char → Option (List Char × List Char)
  | [] => none
  | c :: r =>
    if c = '"' then some ([], r)
    else if c = '\\' then
      if r.headD '*' = 'u' then
        let a := hexVal (r.getD 1 '*')
        let b := hexVal (r.getD 2 '*')
        let d := hexVal (r.getD 3 '*')
        let e4 := hexVal (r.getD 4 '*')
        if a.isSome ∧ b.isSome ∧ d.isSome ∧ e4.isSome then
          let n := a.getD 0 * 4096 + b.getD 0 * 256 + d.getD 0 * 16 + e4.getD 0
          if n < 55296 ∨ 57343 < n then
            (pStrRest (r.drop 5)).map (fun p => (Char.ofNat n :: p.1, p.2))
          else none
        else none
      else
        if (escDecode (r.headD '*')).isSome then
          (pStrRest r.tail).map (fun p => ((escDecode (r.headD '*')).getD '*' :: p.1, p.2))
        else none
    else if c.toNat < 32 then none
    else (pStrRest r).map (fun p => (c :: p.1, p.2))
termination_by l => l.length
decreasing_by all_goals (simp [List.length_tail, List.length_drop]) <;> omega

/-- Digits to a natural number, most significant first. -/
def digitsToNat (ds : List Char) : Nat :=
  ds.foldl (fun a c => a * 10 + (c.toNat - 48)) 0

/-- Parse an integer JSON number at the head of the input. -/
def pNum (l : List Char) : Option (Json × List Char) :=
  let p := match l with
    | c :: r => if c = '-' then (true, r) else (false, l)
    | [] => (false, l)
  let ds := p.2.takeWhile isDigit
  let rest := p.2.dropWhile isDigit
  if ds = [] then none
  else
    let n : Int := Int.ofNat (digitsToNat ds)
    some (Json.num (if p.1 then -n else n), rest)

mutual

/-- Parse one JSON value; the fuel bounds the input length and is
decremented on every nested parse.  The head character (after
whitespace) selects the production; a missing head reads as `' '`, which
selects none of them. -/
def pVal : Nat → List Char → Option (Json × List Char)
  | 0, _ => none
  | fuel + 1, l =>
    let s := skipWs l
    let c := s.headD ' '
    let r := s.tail
    if c = 'n' then
      if r.take 3 = ['u', 'l', 'l'] then some (.null, r.drop 3) else none
    else if c = 't' then
      if r.take 3 = ['r', 'u', 'e'] then some (.bool true, r.drop 3) else none
    else if c = 'f' then
      if r.take 4 = ['a', 'l', 's', 'e'] then some (.bool false, r.drop 4) else none
    else if c = '"' then
      (pStrRest r).map (fun p => (.str (String.mk p.1), p.2))
    else if c = '[' then
      if (skipWs r).headD ' ' = ']' then some (.arr [], (skipWs r).tail)
      else (pElems fuel r).map (fun p => (.arr p.1, p.2))
    else if c = '\x7b' then
      if (skipWs r).headD ' ' = '\x7d' then some (.obj [], (skipWs r).tail)
      else (pFields fuel r).map (fun p => (.obj p.1, p.2))
    else if c = '-' ∨ isDigit c then pNum s
    else none

/-- Parse the comma-separated elements of a non-empty array, consuming the
closing bracket. -/
def pElems : Nat → List Char → Option (List Json × List Char)
  | 0, _ => none
  | fuel + 1, l =>
    (pVal fuel l).bind (fun vr =>
      let s := skipWs vr.2
      if s.headD ' ' = ',' then (pElems fuel s.tail).map (fun p => (vr.1 :: p.1, p.2))
      else if s.headD ' ' = ']' then some ([vr.1], s.tail)
      else none)

/-- Parse the fields of a non-empty object, consuming the closing brace. -/
def pFields : Nat → List Char → Option (List (String × Json) × List Char)
  | 0, _ => none
  | fuel + 1, l =>
    let s := skipWs l
    if s.headD ' ' = '"' then
      (pStrRest s.tail).bind (fun kr =>
        let s2 := skipWs kr.2
        if s2.headD ' ' = ':' then
          (pVal fuel s2.tail).bind (fun vr =>
            let s3 := skipWs vr.2
            if s3.headD ' ' = ',' then
              (pFields fuel s3.tail).map (fun p => ((String.mk kr.1, vr.1) :: p.1, p.2))
            else if s3.headD ' ' = '\x7d' then some ([(String.mk kr.1, vr.1)], s3.tail)
            else none)
        else none)
    else none

end

namespace JSON

/-- `JSON.parse` over the model universe: parse one value and require
only whitespace to remain; `none` on any syntax error (the JavaScript
function throws there). -/
def parse (s : String) : Option Json :=
  (pVal (s.data.length + 1) s.data).bind
    (fun vr => if skipWs vr.2 = [] then some vr.1 else none)

end JSON

/-! ## Base64 (the CryptoJS `enc.Base64` variant)

The encoder is standard; the parser reproduces CryptoJS `parseLoop`: it
stops at the first padding character anywhere in the input, maps unknown
characters to a zero contribution (JavaScript `undefined` coerces to `0`
under the bit operations), and discards the unused low bits of the final
content character of a partial group. -/

/-- The Base64 alphabet of CryptoJS (`enc.Base64._map`), without the
padding character. -/
def b64Alphabet : List Char :=
  ['A', 'B', 'C', 'D', 'E', 'F', 'G', 'H', 'I', 'J', 'K', 'L', 'M',
   'N', 'O', 'P', 'Q', 'R', 'S', 'T', 'U', 'V', 'W', 'X', 'Y', 'Z',
   'a', 'b', 'c', 'd', 'e', 'f', 'g', 'h', 'i', 'j', 'k', 'l', 'm',
   'n', 'o', 'p', 'q', 'r', 's', 't', 'u', 'v', 'w', 'x', 'y', 'z',
   '0', '1', '2', '3', '4', '5', '6', '7', '8', '9', '+', '/']

/-- Character for a 6-bit value. -/
def b64Char (n : Nat) : Char := b64Alphabet.getD n 'A'

/-- Index scan for the reverse map. -/
def b64RevAux : List Char → Nat → Char → Option Nat
  | [], _, _ => none
  | a :: r, i, c => if a = c then some i else b64RevAux r (i + 1) c

/-- Reverse lookup: the 6-bit value of an alphabet character. -/
def b64Rev (c : Char) : Option Nat := b64RevAux b64Alphabet 0 c

/-- Encode the content characters (groups of 3 bytes, a trailing partial
group yielding 3 or 2 characters). -/
def b64EncBody : List Nat → List Char
  | x :: y :: z :: rest =>
      b64Char (x / 4) :: b64Char (x % 4 * 16 + y / 16) ::
      b64Char (y % 16 * 4 + z / 64) :: b64Char (z % 64) :: b64EncBody rest
  | [x, y] => [b64Char (x / 4), b64Char (x % 4 * 16 + y / 16), b64Char (y % 16 * 4)]
  | [x] => [b64Char (x / 4), b64Char (x % 4 * 16)]
  | [] => []

/-- Base64 encoding with `=` padding to a multiple of 4 characters. -/
def b64Encode (bytes : List Nat) : List Char :=
  b64EncBody bytes ++ List.replicate ((3 - bytes.length % 3) % 3) '='

/-- Decode 6-bit values in groups of 4 (2 or 3 trailing values yield 1 or
2 bytes, a single trailing value yields none), as CryptoJS `parseLoop`
computes them. -/
def b64DecBody : List Nat → List Nat
  | a :: b :: c :: d :: rest =>
      (a * 4 + b / 16) :: (b % 16 * 16 + c / 4) :: (c % 4 * 64 + d) :: b64DecBody rest
  | [a, b, c] => [a * 4 + b / 16, b % 16 * 16 + c / 4]
  | [a, b] => [a * 4 + b / 16]
  | _ => []

/-- CryptoJS `enc.Base64.parse`: truncate at the first `=`, map characters
through the reverse map (unknown characters contribute 0), combine. -/
def b64Parse (l : List Char) : List Nat :=
  b64DecBody ((l.takeWhile (fun c => c != '=')).map (fun c => (b64Rev c).getD 0))

/-! ## PKCS7 padding (the CryptoJS `pad.Pkcs7` variant: unpadding reads
the last byte and truncates without validating the padding) -/

/-- Pad to a multiple of 16 bytes; always appends between 1 and 16
bytes. -/
def pkcs7Pad (l : List Nat) : List Nat :=
  let n := 16 - l.length % 16
  l ++ List.replicate n n

/-- Unpad: truncate by the value of the last byte (no validation, as in
CryptoJS). -/
def pkcs7Unpad (l : List Nat) : List Nat :=
  l.take (l.length - (l.getLast?).getD 0)

/-! ## CBC mode over an abstract block transform -/

/-- Split into 16-byte blocks. -/
def chunks16 : List Nat → List (List Nat)
  | [] => []
  | a :: rest => (a :: rest).take 16 :: chunks16 ((a :: rest).drop 16)
termination_by l => l.length
decreasing_by simp; omega

/-- Byte-wise xor of two blocks. -/
def bxor (a b : List Nat) : List Nat := List.zipWith (· ^^^ ·) a b

/-- CBC encryption: each plaintext block is xored with the previous
ciphertext block (initially the IV) and sent through the block
transform. -/
def cbcEnc (E : List Nat → List Nat) : List Nat → List (List Nat) → List (List Nat)
  | _, [] => []
  | prev, b :: bs =>
      let c := E (bxor prev b)
      c :: cbcEnc E c bs

/-- CBC decryption. -/
def cbcDec (D : List Nat → List Nat) : List Nat → List (List Nat) → List (List Nat)
  | _, [] => []
  | prev, c :: cs => bxor prev (D c) :: cbcDec D c cs

/-! ## The CryptoJS password-based AES layer -/

/-- The salt-keyed primitive inside `CryptoJS.AES.encrypt(msg, passphrase)`:
from the passphrase and the embedded salt, `EvpKDF` derives the AES-256
key and IV, and the AES core transforms one 16-byte block.  The
repository code never looks inside this primitive, so it is a parameter
of the embedding; `EvpCipher.Lawful` states the properties a correctly
implemented block cipher guarantees and every theorem that needs them
takes them as an explicit hypothesis. -/
structure EvpCipher where
  encBlock : List Nat → List Nat → List Nat
  decBlock : List Nat → List Nat → List Nat
  iv : List Nat → List Nat

/-- Correctness of the block-transform parameter: decryption inverts
encryption on 16-byte blocks, blocks stay 16 bytes of byte values, and
the derived IV is a 16-byte block. -/
def EvpCipher.Lawful (C : EvpCipher) : Prop :=
  (∀ salt b, b.length = 16 → ByteOk b → C.decBlock salt (C.encBlock salt b) = b) ∧
  (∀ salt b, b.length = 16 → ByteOk b →
      (C.encBlock salt b).length = 16 ∧ ByteOk (C.encBlock salt b)) ∧
  (∀ salt, (C.iv salt).length = 16 ∧ ByteOk (C.iv salt))

/-- The OpenSSL salted-format magic `"Salted__"` as bytes. -/
def saltedMagic : List Nat := [83, 97, 108, 116, 101, 100, 95, 95]

/-- `CryptoJS.AES.encrypt(message, passphrase).toString()`: pad the UTF-8
bytes of the message, CBC-encrypt with the salt-derived key and IV,
prepend `"Salted__" ++ salt`, Base64-encode. -/
def aesEncrypt (C : EvpCipher) (salt : List Nat) (message : String) : String :=
  let ct := (cbcEnc (C.encBlock salt) (C.iv salt)
              (chunks16 (pkcs7Pad (utf8Encode message)))).flatten
  String.mk (b64Encode (saltedMagic ++ salt ++ ct))

/-- `CryptoJS.AES.decrypt(blob, passphrase)` followed by
`.toString(CryptoJS.enc.Utf8)`: Base64-parse, check the `"Salted__"`
magic and extract the embedded salt, CBC-decrypt, unpad, UTF-8 decode.
When the magic is absent the real library derives a key from a fresh
random salt and decrypts to an unrelated garbage block that fails the
UTF-8 or JSON stage; the model collapses that path, and a ciphertext
whose length is not a multiple of the block size, to the same `none`
outcome the caller observes. -/
def aesDecrypt (C : EvpCipher) (blob : String) : Option String :=
  let bytes := b64Parse blob.data
  if bytes.take 8 = saltedMagic ∧ 16 ≤ bytes.length then
    let salt := (bytes.drop 8).take 8
    let ct := bytes.drop 16
    if ct.length % 16 = 0 then
      let pt := (cbcDec (C.decBlock salt) (C.iv salt) (chunks16 ct)).flatten
      match utf8Decode (pkcs7Unpad pt) with
      | some cs => some (String.mk cs)
      | none => none
    else none
  else none

/-! ## `encryptData` / `decryptData` (encryption.ts) -/

/-- The `"encrypted:"` scheme tag as characters. -/
def encPrefix : List Char := ['e', 'n', 'c', 'r', 'y', 'p', 't', 'e', 'd', ':']

/-- `encryptData` (encryption.ts lines 36-51): stringify, AES-encrypt with
the device key, prepend the scheme tag.  `salt` is the random salt
CryptoJS draws for this call.  `encFails` selects the `catch` branch:
when anything inside the `try` throws, the function falls back to
returning the plain JSON string (observable only through a log line). -/
def encryptData (C : EvpCipher) (salt : List Nat) (encFails : Bool) (v : Json) : String :=
  if encFails then JSON.stringify v
  else String.mk (encPrefix ++ (aesEncrypt C salt (JSON.stringify v)).data)

/-- `decryptData` (encryption.ts lines 56-78): if the blob does not start
with the `"encrypted:"` tag, parse it as plain JSON; otherwise strip the
tag (`replace('encrypted:', '')` removes the first occurrence, which
under the `startsWith` guard is the leading tag), AES-decrypt and parse
the plaintext; every failure inside the `try` is caught and yields
`null`. -/
def decryptData (C : EvpCipher) (blob : String) : Option Json :=
  if blob.data.take 10 = encPrefix then
    match aesDecrypt C (String.mk (blob.data.drop 10)) with
    | some plain => JSON.parse plain
    | none => none
  else JSON.parse blob

/-- A concrete lawful instance of the cipher parameter for closed witness
statements: every byte is shifted by a constant.  It stands in for the
AES block transform only in witnesses; the claim theorems are proved for
every lawful cipher. -/
def demoCipher : EvpCipher where
  encBlock := fun _ b => b.map (fun x => (x + 37) % 256)
  decBlock := fun _ b => b.map (fun x => (x + 219) % 256)
  iv := fun _ => List.replicate 16 0

/-- An all-zero 8-byte salt for witnesses. -/
def demoSalt : List Nat := List.replicate 8 0

/-- The single-character tampering of claim C9, applied to the last
content character of the Base64 blob (the character right before the
final `=` padding): replace it by the alphabet character whose 6-bit
value is one higher.  For a ciphertext of `16 k` bytes with `k ≡ 1 mod 3`
(one AES block), that character carries only 4 meaningful bits, and
CryptoJS `parseLoop` discards its low 2 bits, so the modified blob decodes
to exactly the same bytes. -/
def bumpPenult (l : List Char) : List Char :=
  l.set (l.length - 2) (b64Char ((b64Rev (l.getD (l.length - 2) 'A')).getD 0 + 1))

/-- The C9 tampering on the blob string: modify the penultimate
character (a single-character modification of the ciphertext portion). -/
def tamperPenult (s : String) : String := String.mk (bumpPenult s.data)

/-! ## Theorems about the authentication state machine and interceptors -/

/-- C5: after `logout`, for every prior state and storage, the secure
session store returns `null` for both `getToken` and `getUser`, the
persisted envelope entries are removed, and the in-memory state has
`user == null`, `token == null`, `isAuthenticated == false`,
`error == null`, `users == []` and both success messages `null`, all in
the single synchronous `logout` operation. -/
theorem logout_complete (s : AuthState) (st : Storage) :
    secureStorage.getToken (logout s st).2 = none ∧
    secureStorage.getUser (logout s st).2 = none ∧
    (logout s st).2.persistRoot = none ∧
    (logout s st).2.persistAuth = none ∧
    (logout s st).1.user = none ∧
    (logout s st).1.token = none ∧
    (logout s st).1.isAuthenticated = false ∧
    (logout s st).1.error = none ∧
    (logout s st).1.users = [] ∧
    (logout s st).1.forgotPasswordMessage = none ∧
    (logout s st).1.resetPasswordMessage = none := by
  simp [logout, secureStorage.getToken, secureStorage.getUser,
    secureStorage.removeToken, secureStorage.removeUser]

/-- C10: the `logout` reducer leaves `isLoading` unchanged: for every
prior state and storage, `isLoading` after `logout` equals its value
before, so a logout dispatched while an operation is pending leaves the
state reporting `isLoading == true`. -/
theorem logout_isLoading_frame (s : AuthState) (st : Storage) :
    (logout s st).1.isLoading = s.isLoading := by
  simp [logout]

/-- C6: for every possible content of the secure store, after running
`loadUserFromStorage` from the initial state the invariant
`isAuthenticated == (user != null && token != null)` holds, and the
session is never partially populated: either both `user` and `token` are
set with `isAuthenticated` true, or the state stays exactly the initial
state. -/
theorem loadFromStorage_invariant (st : Storage) :
    ((loadUserFromStorage initialState st).1.isAuthenticated = true ↔
      ((loadUserFromStorage initialState st).1.user.isSome = true ∧
       (loadUserFromStorage initialState st).1.token.isSome = true)) ∧
    ((loadUserFromStorage initialState st).1 = initialState ∨
      ((loadUserFromStorage initialState st).1.isAuthenticated = true ∧
       (loadUserFromStorage initialState st).1.user = secureStorage.getUser st ∧
       (loadUserFromStorage initialState st).1.token = secureStorage.getToken st)) := by
  cases h1 : secureStorage.getToken st <;> cases h2 : secureStorage.getUser st <;>
    simp [loadUserFromStorage, h1, h2, initialState]

/-- C7, counterexample: the claim fails as stated on two counts.  A login
rejection whose message is the empty string sets `error` to the default
`"Login failed"`, not to the message (the reducer computes
`action.payload || 'Login failed'` and the empty string is falsy); and a
`forgotPassword` rejection does not change only its own error/message
fields: it also clears `isLoading`. -/
theorem rejected_claim_counterexample :
    (loginUserRejected initialState (some "")).error ≠ some "" ∧
    (forgotPasswordRejected { initialState with isLoading := true } (some "x")).isLoading ≠
      ({ initialState with isLoading := true } : AuthState).isLoading := by
  constructor <;> simp [loginUserRejected, forgotPasswordRejected, orDefault, initialState]

/-- C7, amended: for every prior state and rejection payload, a rejected
login sets `user` to null, `token` to null and `isAuthenticated` to false
(full rollback) and sets `error` to the message when it is non-empty and
to the default `"Login failed"` when the message is empty or missing;
whereas a rejected `forgotPassword` leaves `user`, `token`,
`isAuthenticated` (and `users`, `resetPasswordMessage`) exactly as they
were, changing only `isLoading`, `error` and `forgotPasswordMessage`. -/
theorem rejection_destructive_vs_nonDestructive (s : AuthState) (payload : Option String) :
    (loginUserRejected s payload).user = none ∧
    (loginUserRejected s payload).token = none ∧
    (loginUserRejected s payload).isAuthenticated = false ∧
    (loginUserRejected s payload).error = some (orDefault payload "Login failed") ∧
    (forgotPasswordRejected s payload).user = s.user ∧
    (forgotPasswordRejected s payload).token = s.token ∧
    (forgotPasswordRejected s payload).isAuthenticated = s.isAuthenticated ∧
    (forgotPasswordRejected s payload).users = s.users ∧
    (forgotPasswordRejected s payload).resetPasswordMessage = s.resetPasswordMessage ∧
    (forgotPasswordRejected s payload).isLoading = false ∧
    (forgotPasswordRejected s payload).error =
      some (orDefault payload "Failed to send reset email") ∧
    (forgotPasswordRejected s payload).forgotPasswordMessage = none := by
  simp [loginUserRejected, forgotPasswordRejected]

/-- C2: the `resetPassword` thunk performs no secure-store write at all:
for a fulfilled response carrying fresh auth data, the storage after the
thunk is exactly the storage before, even though the `fulfilled` reducer
installs the new user, token and `isAuthenticated = true` in memory —
unlike the `loginUser` thunk, which writes both secrets through to the
secure session store on the same response. -/
theorem resetPassword_no_writeThrough (st : Storage) (s : AuthState)
    (u : User) (t : String) (m : Option String) (ht : t ≠ "") :
    (resetPasswordThunk ⟨true, m, some ⟨u, t⟩⟩ st).1 = st ∧
    secureStorage.getToken (resetPasswordThunk ⟨true, m, some ⟨u, t⟩⟩ st).1 =
      secureStorage.getToken st ∧
    (resetPasswordFulfilled s ⟨true, m, some ⟨u, t⟩⟩).user = some u ∧
    (resetPasswordFulfilled s ⟨true, m, some ⟨u, t⟩⟩).token = some t ∧
    (resetPasswordFulfilled s ⟨true, m, some ⟨u, t⟩⟩).isAuthenticated = true ∧
    (loginUserThunk ⟨true, m, some ⟨u, t⟩⟩ st).1.authToken = some t ∧
    (loginUserThunk ⟨true, m, some ⟨u, t⟩⟩ st).1.userData = some u := by
  simp [resetPasswordThunk, resetPasswordFulfilled, loginUserThunk, ht,
    secureStorage.setToken, secureStorage.setUser, secureStorage.getToken]

/-- C2, witness: the divergence evaluated at a concrete fulfilled
reset-password response. -/
theorem resetPassword_no_writeThrough_witness :
    ("tkn" : String) ≠ "" ∧
    (resetPasswordThunk ⟨true, none, some ⟨demoUser, "tkn"⟩⟩ Storage.empty).1 =
      Storage.empty :=
  ⟨by decide,
   (resetPassword_no_writeThrough Storage.empty initialState demoUser "tkn" none
      (by decide)).1⟩

/-- C3: after a successful login through the normal (secure) path, a
session token is present in the secure session store, yet the request
interceptor attaches no `Authorization` header, because it reads the
plain `localStorage` key `'token'`, which the login flow never writes. -/
theorem bearerHeader_not_attached (st : Storage) (u : User) (t : String)
    (hpt : st.plainToken = none) (ht : t ≠ "") :
    secureStorage.getToken (loginUserThunk ⟨true, none, some ⟨u, t⟩⟩ st).1 = some t ∧
    requestInterceptor (loginUserThunk ⟨true, none, some ⟨u, t⟩⟩ st).1 none = none := by
  simp [loginUserThunk, ht, secureStorage.setToken, secureStorage.setUser,
    secureStorage.getToken, requestInterceptor, hpt]

/-- C3, witness: the divergence evaluated on an empty browser storage and
the concrete token `"tkn"`. -/
theorem bearerHeader_not_attached_witness :
    (Storage.empty.plainToken = none ∧ ("tkn" : String) ≠ "") ∧
    (secureStorage.getToken
        (loginUserThunk ⟨true, none, some ⟨demoUser, "tkn"⟩⟩ Storage.empty).1 = some "tkn" ∧
     requestInterceptor
        (loginUserThunk ⟨true, none, some ⟨demoUser, "tkn"⟩⟩ Storage.empty).1 none = none) :=
  ⟨⟨rfl, by decide⟩,
   bearerHeader_not_attached Storage.empty demoUser "tkn" rfl (by decide)⟩

/-- C4: a 401 response forces navigation to `/login` and removes the
plain `localStorage` entries `'token'` and `'user'`, but it leaves the
secure session store entries (`auth_token`, `user_data`) and the
persisted envelope entries (`persist:root`, `persist:auth`) untouched,
for every storage content: the session of the normal auth flow survives
the teardown. -/
theorem response401_teardown (st : Storage) :
    (responseInterceptor 401 st).2 = some "/login" ∧
    (responseInterceptor 401 st).1.plainToken = none ∧
    (responseInterceptor 401 st).1.plainUser = none ∧
    (responseInterceptor 401 st).1.authToken = st.authToken ∧
    (responseInterceptor 401 st).1.userData = st.userData ∧
    (responseInterceptor 401 st).1.persistRoot = st.persistRoot ∧
    (responseInterceptor 401 st).1.persistAuth = st.persistAuth := by
  simp [responseInterceptor]

/-! ## Round-trip of the UTF-8 codec -/

theorem isCont_add (x : Nat) (h : x < 64) : isCont (128 + x) = true := by
  simp only [isCont, beq_iff_eq]
  omega

theorem utf8Decode_encodeChar (c : Char) (l : List Nat) :
    utf8Decode (utf8EncodeChar c ++ l) = (utf8Decode l).map (fun cs => c :: cs) := by
  have hv : c.toNat < 55296 ∨ (57343 < c.toNat ∧ c.toNat < 1114112) := c.valid
  by_cases h1 : c.toNat < 128
  · have henc : utf8EncodeChar c = [c.toNat] := by
      simp only [utf8EncodeChar]
      rw [if_pos h1]
    rw [henc, List.cons_append, List.nil_append, utf8Decode.eq_def]
    simp only [h1, ite_true, Char.ofNat_toNat]
  · by_cases h2 : c.toNat < 2048
    · have henc : utf8EncodeChar c = [192 + c.toNat / 64, 128 + c.toNat % 64] := by
        simp only [utf8EncodeChar]
        rw [if_neg h1, if_pos h2]
      have hcont := isCont_add (c.toNat % 64) (by omega)
      rw [henc, List.cons_append, List.cons_append, List.nil_append, utf8Decode.eq_def]
      simp only [List.headD_cons, List.tail_cons, hcont, true_and,
        (by omega : (192 + c.toNat / 64 - 192) * 64 + (128 + c.toNat % 64 - 128) = c.toNat),
        (by omega : 192 + c.toNat / 64 < 224),
        (by omega : (128:Nat) ≤ c.toNat), ite_true, Char.ofNat_toNat]
      rw [if_neg (by omega), if_neg (by omega)]
    · by_cases h3 : c.toNat < 65536
      · have henc : utf8EncodeChar c =
            [224 + c.toNat / 4096, 128 + c.toNat / 64 % 64, 128 + c.toNat % 64] := by
          simp only [utf8EncodeChar]
          rw [if_neg h1, if_neg h2, if_pos h3]
        have hcont1 := isCont_add (c.toNat / 64 % 64) (by omega)
        have hcont2 := isCont_add (c.toNat % 64) (by omega)
        have hsur : c.toNat < 55296 ∨ 57343 < c.toNat := by omega
        rw [henc, List.cons_append, List.cons_append, List.cons_append,
          List.nil_append, utf8Decode.eq_def]
        simp only [List.headD_cons, List.getD_cons_succ, List.getD_cons_zero,
          List.drop_succ_cons, List.drop_zero, hcont1, hcont2, true_and,
          (by omega : (224 + c.toNat / 4096 - 224) * 4096 +
            (128 + c.toNat / 64 % 64 - 128) * 64 + (128 + c.toNat % 64 - 128) = c.toNat),
          (by omega : 224 + c.toNat / 4096 < 240),
          (by omega : (2048:Nat) ≤ c.toNat), hsur, and_true, ite_true, Char.ofNat_toNat]
        rw [if_neg (by omega), if_neg (by omega), if_neg (by omega)]
      · have henc : utf8EncodeChar c =
            [240 + c.toNat / 262144, 128 + c.toNat / 4096 % 64,
             128 + c.toNat / 64 % 64, 128 + c.toNat % 64] := by
          simp only [utf8EncodeChar]
          rw [if_neg h1, if_neg h2, if_neg h3]
        have hcont1 := isCont_add (c.toNat / 4096 % 64) (by omega)
        have hcont2 := isCont_add (c.toNat / 64 % 64) (by omega)
        have hcont3 := isCont_add (c.toNat % 64) (by omega)
        have hup : c.toNat < 1114112 := by omega
        rw [henc, List.cons_append, List.cons_append, List.cons_append,
          List.cons_append, List.nil_append, utf8Decode.eq_def]
        simp only [List.headD_cons, List.getD_cons_succ, List.getD_cons_zero,
          List.drop_succ_cons, List.drop_zero, hcont1, hcont2, hcont3, true_and,
          (by omega : (240 + c.toNat / 262144 - 240) * 262144 +
            (128 + c.toNat / 4096 % 64 - 128) * 4096 +
            (128 + c.toNat / 64 % 64 - 128) * 64 + (128 + c.toNat % 64 - 128) = c.toNat),
          (by omega : 240 + c.toNat / 262144 < 248),
          (by omega : (65536:Nat) ≤ c.toNat), hup, and_true, ite_true, Char.ofNat_toNat]
        rw [if_neg (by omega), if_neg (by omega), if_neg (by omega), if_neg (by omega)]

theorem utf8Decode_encode_list (cs : List Char) :
    utf8Decode ((cs.map utf8EncodeChar).flatten) = some cs := by
  induction cs with
  | nil => rw [List.map_nil, List.flatten_nil, utf8Decode]
  | cons c cs ih =>
    rw [List.map_cons, List.flatten_cons, utf8Decode_encodeChar, ih, Option.map_some']

theorem utf8Decode_encode (s : String) : utf8Decode (utf8Encode s) = some s.data :=
  utf8Decode_encode_list s.data

theorem byteOk_utf8EncodeChar (c : Char) : ByteOk (utf8EncodeChar c) := by
  have hv : c.toNat < 55296 ∨ (57343 < c.toNat ∧ c.toNat < 1114112) := c.valid
  intro x hx
  simp only [utf8EncodeChar] at hx
  split at hx <;> [skip; split at hx] <;> [skip; skip; split at hx] <;>
    simp only [List.mem_cons, List.mem_singleton, List.not_mem_nil, or_false] at hx <;>
    omega

theorem byteOk_utf8Encode (s : String) : ByteOk (utf8Encode s) := by
  intro x hx
  simp only [utf8Encode, List.mem_flatten, List.mem_map] at hx
  obtain ⟨l, ⟨c, _, rfl⟩, hxl⟩ := hx
  exact byteOk_utf8EncodeChar c x hxl

/-! ## Round-trip and tamper behaviour of the Base64 codec -/

theorem b64Rev_b64Char : ∀ n, n < 64 → b64Rev (b64Char n) = some n := by decide

theorem b64Char_ne_pad : ∀ n, n < 64 → (b64Char n != '=') = true := by decide

theorem b64Char_ne_of_ne : ∀ a, a < 64 → ∀ b, b < 64 → a ≠ b → b64Char a ≠ b64Char b := by decide

theorem b64_roundtrip_vals (bytes : List Nat) (h : ByteOk bytes) :
    b64DecBody ((b64EncBody bytes).map (fun c => (b64Rev c).getD 0)) = bytes := by
  induction bytes using b64EncBody.induct with
  | case1 x y z rest ih =>
    have hx : x < 256 := h x (by simp)
    have hy : y < 256 := h y (by simp)
    have hz : z < 256 := h z (by simp)
    rw [b64EncBody]
    simp only [List.map_cons,
      b64Rev_b64Char (x / 4) (by omega),
      b64Rev_b64Char (x % 4 * 16 + y / 16) (by omega),
      b64Rev_b64Char (y % 16 * 4 + z / 64) (by omega),
      b64Rev_b64Char (z % 64) (by omega), Option.getD_some]
    rw [b64DecBody]
    rw [(by omega : x / 4 * 4 + (x % 4 * 16 + y / 16) / 16 = x),
        (by omega : (x % 4 * 16 + y / 16) % 16 * 16 + (y % 16 * 4 + z / 64) / 4 = y),
        (by omega : (y % 16 * 4 + z / 64) % 4 * 64 + z % 64 = z),
        ih (fun a ha => h a (by simp [ha]))]
  | case2 x y =>
    have hx : x < 256 := h x (by simp)
    have hy : y < 256 := h y (by simp)
    rw [b64EncBody]
    simp only [List.map_cons, List.map_nil,
      b64Rev_b64Char (x / 4) (by omega),
      b64Rev_b64Char (x % 4 * 16 + y / 16) (by omega),
      b64Rev_b64Char (y % 16 * 4) (by omega), Option.getD_some]
    rw [b64DecBody]
    rw [(by omega : x / 4 * 4 + (x % 4 * 16 + y / 16) / 16 = x),
        (by omega : (x % 4 * 16 + y / 16) % 16 * 16 + y % 16 * 4 / 4 = y)]
  | case3 x =>
    have hx : x < 256 := h x (by simp)
    rw [b64EncBody]
    simp only [List.map_cons, List.map_nil,
      b64Rev_b64Char (x / 4) (by omega),
      b64Rev_b64Char (x % 4 * 16) (by omega), Option.getD_some]
    rw [b64DecBody]
    rw [(by omega : x / 4 * 4 + x % 4 * 16 / 16 = x)]
  | case4 => rw [b64EncBody]; rfl

theorem b64EncBody_ne_pad (bytes : List Nat) (h : ByteOk bytes) :
    ∀ c ∈ b64EncBody bytes, (c != '=') = true := by
  induction bytes using b64EncBody.induct with
  | case1 x y z rest ih =>
    have hx : x < 256 := h x (by simp)
    have hy : y < 256 := h y (by simp)
    have hz : z < 256 := h z (by simp)
    intro c hc
    rw [b64EncBody] at hc
    simp only [List.mem_cons] at hc
    rcases hc with rfl | rfl | rfl | rfl | hc
    · exact b64Char_ne_pad _ (by omega)
    · exact b64Char_ne_pad _ (by omega)
    · exact b64Char_ne_pad _ (by omega)
    · exact b64Char_ne_pad _ (by omega)
    · exact ih (fun a ha => h a (by simp [ha])) c hc
  | case2 x y =>
    have hx : x < 256 := h x (by simp)
    have hy : y < 256 := h y (by simp)
    intro c hc
    rw [b64EncBody] at hc
    simp only [List.mem_cons, List.not_mem_nil, or_false] at hc
    rcases hc with rfl | rfl | rfl
    · exact b64Char_ne_pad _ (by omega)
    · exact b64Char_ne_pad _ (by omega)
    · exact b64Char_ne_pad _ (by omega)
  | case3 x =>
    have hx : x < 256 := h x (by simp)
    intro c hc
    rw [b64EncBody] at hc
    simp only [List.mem_cons, List.not_mem_nil, or_false] at hc
    rcases hc with rfl | rfl
    · exact b64Char_ne_pad _ (by omega)
    · exact b64Char_ne_pad _ (by omega)
  | case4 =>
    intro c hc
    rw [b64EncBody] at hc
    simp at hc

theorem takeWhile_replicate_pad (n : Nat) :
    List.takeWhile (fun c => c != '=') (List.replicate n '=') = [] := by
  cases n <;> simp [List.replicate, List.takeWhile]

theorem b64Parse_encode (bytes : List Nat) (h : ByteOk bytes) :
    b64Parse (b64Encode bytes) = bytes := by
  unfold b64Parse b64Encode
  rw [List.takeWhile_append,
    if_pos (by rw [List.takeWhile_eq_self_iff.mpr (b64EncBody_ne_pad bytes h)]),
    takeWhile_replicate_pad, List.append_nil]
  exact b64_roundtrip_vals bytes h


theorem bumpPenult_cons (a : Char) (l : List Char) (h : 2 ≤ l.length) :
    bumpPenult (a :: l) = a :: bumpPenult l := by
  unfold bumpPenult
  rw [List.length_cons, (by omega : l.length + 1 - 2 = (l.length - 2) + 1),
    List.getD_cons_succ, List.set_cons_succ]

theorem b64Parse_cons4 (c1 c2 c3 c4 : Char) (t : List Char)
    (h1 : (c1 != '=') = true) (h2 : (c2 != '=') = true)
    (h3 : (c3 != '=') = true) (h4 : (c4 != '=') = true) :
    b64Parse (c1 :: c2 :: c3 :: c4 :: t) =
      ((b64Rev c1).getD 0 * 4 + (b64Rev c2).getD 0 / 16) ::
      ((b64Rev c2).getD 0 % 16 * 16 + (b64Rev c3).getD 0 / 4) ::
      ((b64Rev c3).getD 0 % 4 * 64 + (b64Rev c4).getD 0) :: b64Parse t := by
  unfold b64Parse
  rw [List.takeWhile_cons, if_pos h1, List.takeWhile_cons, if_pos h2,
    List.takeWhile_cons, if_pos h3, List.takeWhile_cons, if_pos h4]
  simp only [List.map_cons]
  rw [b64DecBody]

theorem b64Parse_three_pad (a b c : Char)
    (ha : (a != '=') = true) (hb : (b != '=') = true) (hc : (c != '=') = true) :
    b64Parse [a, b, c, '='] =
      [(b64Rev a).getD 0 * 4 + (b64Rev b).getD 0 / 16,
       (b64Rev b).getD 0 % 16 * 16 + (b64Rev c).getD 0 / 4] := by
  unfold b64Parse
  rw [List.takeWhile_cons, if_pos ha, List.takeWhile_cons, if_pos hb,
    List.takeWhile_cons, if_pos hc, List.takeWhile_cons, if_neg (by decide)]
  simp only [List.map_cons, List.map_nil]
  rw [b64DecBody]

theorem b64EncBody_length_ge (bytes : List Nat) (h2 : bytes.length % 3 = 2) :
    2 ≤ (b64EncBody bytes).length := by
  induction bytes using b64EncBody.induct with
  | case1 x y z rest ih => rw [b64EncBody]; simp
  | case2 x y => rw [b64EncBody]; simp
  | case3 x => simp at h2
  | case4 => simp at h2

theorem b64_bump_aux (bytes : List Nat) (h : ByteOk bytes) (h2 : bytes.length % 3 = 2) :
    bumpPenult (b64EncBody bytes ++ ['=']) ≠ b64EncBody bytes ++ ['='] ∧
    b64Parse (bumpPenult (b64EncBody bytes ++ ['='])) = b64Parse (b64EncBody bytes ++ ['=']) := by
  induction bytes using b64EncBody.induct with
  | case1 x y z rest ih =>
    have hx : x < 256 := h x (by simp)
    have hy : y < 256 := h y (by simp)
    have hz : z < 256 := h z (by simp)
    have hrest2 : rest.length % 3 = 2 := by
      simp only [List.length_cons] at h2; omega
    have hlen : 2 ≤ (b64EncBody rest ++ ['=']).length := by
      rw [List.length_append]
      have := b64EncBody_length_ge rest hrest2
      simp
      omega
    obtain ⟨ihne, ihparse⟩ := ih (fun a ha => h a (by simp [ha])) hrest2
    rw [b64EncBody]
    simp only [List.cons_append]
    rw [bumpPenult_cons _ _ (by simp only [List.length_cons]; omega),
        bumpPenult_cons _ _ (by simp only [List.length_cons]; omega),
        bumpPenult_cons _ _ (by simp only [List.length_cons]; omega),
        bumpPenult_cons _ _ hlen]
    constructor
    · simp only [ne_eq, List.cons.injEq, true_and]
      intro hcontra
      exact ihne hcontra
    · rw [b64Parse_cons4 _ _ _ _ _
          (b64Char_ne_pad _ (by omega)) (b64Char_ne_pad _ (by omega))
          (b64Char_ne_pad _ (by omega)) (b64Char_ne_pad _ (by omega)),
        b64Parse_cons4 _ _ _ _ _
          (b64Char_ne_pad _ (by omega)) (b64Char_ne_pad _ (by omega))
          (b64Char_ne_pad _ (by omega)) (b64Char_ne_pad _ (by omega)),
        ihparse]
  | case2 x y =>
    have hx : x < 256 := h x (by simp)
    have hy : y < 256 := h y (by simp)
    have hb : bumpPenult [b64Char (x / 4), b64Char (x % 4 * 16 + y / 16),
        b64Char (y % 16 * 4), '='] =
        [b64Char (x / 4), b64Char (x % 4 * 16 + y / 16), b64Char (y % 16 * 4 + 1), '='] := by
      simp [bumpPenult, List.getD_cons_succ, List.getD_cons_zero, List.set_cons_succ,
        List.set_cons_zero, b64Rev_b64Char (y % 16 * 4) (by omega)]
    rw [b64EncBody]
    simp only [List.cons_append, List.nil_append]
    rw [hb]
    constructor
    · simp only [ne_eq, List.cons.injEq, true_and, and_true]
      intro hcontra
      exact b64Char_ne_of_ne _ (by omega) _ (by omega) (by omega) hcontra
    · rw [b64Parse_three_pad _ _ _
          (b64Char_ne_pad _ (by omega)) (b64Char_ne_pad _ (by omega))
          (b64Char_ne_pad _ (by omega)),
        b64Parse_three_pad _ _ _
          (b64Char_ne_pad _ (by omega)) (b64Char_ne_pad _ (by omega))
          (b64Char_ne_pad _ (by omega))]
      rw [b64Rev_b64Char (y % 16 * 4) (by omega),
          b64Rev_b64Char (y % 16 * 4 + 1) (by omega), Option.getD_some, Option.getD_some]
      rw [(by omega : (y % 16 * 4 + 1) / 4 = y % 16 * 4 / 4)]
  | case3 x => simp at h2
  | case4 => simp at h2

theorem b64_bump (bytes : List Nat) (h : ByteOk bytes) (h2 : bytes.length % 3 = 2) :
    bumpPenult (b64Encode bytes) ≠ b64Encode bytes ∧
    b64Parse (bumpPenult (b64Encode bytes)) = bytes := by
  have henc : b64Encode bytes = b64EncBody bytes ++ ['='] := by
    unfold b64Encode
    rw [h2]
    norm_num
  rw [henc]
  refine ⟨(b64_bump_aux bytes h h2).1, ?_⟩
  rw [(b64_bump_aux bytes h h2).2, ← henc]
  exact b64Parse_encode bytes h

/-! ## PKCS7, block chunking and CBC lemmas -/

theorem pkcs7Unpad_pad (l : List Nat) : pkcs7Unpad (pkcs7Pad l) = l := by
  unfold pkcs7Pad pkcs7Unpad
  have h1 : 1 ≤ 16 - l.length % 16 := by omega
  have hlast : (List.replicate (16 - l.length % 16) (16 - l.length % 16)).getLast?
      = some (16 - l.length % 16) := by
    rw [(by omega : 16 - l.length % 16 = (16 - l.length % 16 - 1) + 1),
      List.replicate_succ', List.getLast?_concat]
  rw [List.getLast?_append, hlast]
  simp only [Option.or_some, Option.getD_some, List.length_append, List.length_replicate]
  rw [(by omega : l.length + (16 - l.length % 16) - (16 - l.length % 16) = l.length)]
  exact List.take_left l _

theorem pkcs7Pad_length (l : List Nat) :
    (pkcs7Pad l).length % 16 = 0 ∧ 0 < (pkcs7Pad l).length := by
  unfold pkcs7Pad
  simp only [List.length_append, List.length_replicate]
  omega

theorem byteOk_pkcs7Pad (l : List Nat) (h : ByteOk l) : ByteOk (pkcs7Pad l) := by
  intro x hx
  unfold pkcs7Pad at hx
  rw [List.mem_append] at hx
  rcases hx with hx | hx
  · exact h x hx
  · rw [List.eq_of_mem_replicate hx]; omega

theorem chunks16_flatten (l : List Nat) : (chunks16 l).flatten = l := by
  induction l using chunks16.induct with
  | case1 => rw [chunks16]; rfl
  | case2 a rest ih =>
    rw [chunks16, List.flatten_cons, ih, List.take_append_drop]

theorem chunks16_blocks (l : List Nat) (hlen : l.length % 16 = 0) (hB : ByteOk l) :
    ∀ b ∈ chunks16 l, b.length = 16 ∧ ByteOk b := by
  induction l using chunks16.induct with
  | case1 => intro b hb; rw [chunks16] at hb; simp at hb
  | case2 a rest ih =>
    intro b hb
    rw [chunks16] at hb
    have hge : 16 ≤ (a :: rest).length := by
      rw [List.length_cons] at hlen ⊢
      omega
    rcases List.mem_cons.mp hb with rfl | hb
    · refine ⟨by rw [List.length_take]; omega, ?_⟩
      intro x hx
      exact hB x (List.take_subset _ _ hx)
    · refine ih ?_ ?_ b hb
      · rw [List.length_drop]; omega
      · intro x hx
        exact hB x (List.drop_subset _ _ hx)

theorem chunks16_flatten_blocks (bls : List (List Nat)) (h : ∀ b ∈ bls, b.length = 16) :
    chunks16 bls.flatten = bls := by
  induction bls with
  | nil => rw [List.flatten_nil, chunks16]
  | cons b bs ih =>
    have hb : b.length = 16 := h b (by simp)
    obtain ⟨x, xs, rfl⟩ : ∃ x xs, b = x :: xs := by
      cases b with
      | nil => simp at hb
      | cons x xs => exact ⟨x, xs, rfl⟩
    have ht : (x :: (xs ++ bs.flatten)).take 16 = x :: xs := by
      rw [← List.cons_append]
      exact List.take_left' hb
    have hd : (x :: (xs ++ bs.flatten)).drop 16 = bs.flatten := by
      rw [← List.cons_append]
      exact List.drop_left' hb
    rw [List.flatten_cons, List.cons_append, chunks16, ht, hd,
      ih (fun b hb => h b (by simp [hb]))]

theorem bxor_length (a b : List Nat) : (bxor a b).length = min a.length b.length := by
  simp [bxor]

theorem byteOk_bxor (a b : List Nat) (ha : ByteOk a) (hb : ByteOk b) :
    ByteOk (bxor a b) := by
  induction a generalizing b with
  | nil => intro x hx; simp [bxor] at hx
  | cons p ps ih =>
    intro x hx
    cases b with
    | nil => simp [bxor] at hx
    | cons q qs =>
      simp only [bxor, List.zipWith_cons_cons, List.mem_cons] at hx
      rcases hx with rfl | hx
      · exact Nat.xor_lt_two_pow (n := 8) (ha p (by simp)) (hb q (by simp))
      · exact ih qs (fun u hu => ha u (by simp [hu])) (fun u hu => hb u (by simp [hu])) x hx

theorem bxor_cancel (a b : List Nat) (h : a.length = b.length) :
    bxor a (bxor a b) = b := by
  induction a generalizing b with
  | nil =>
    cases b with
    | nil => rfl
    | cons q qs => simp at h
  | cons p ps ih =>
    cases b with
    | nil => simp at h
    | cons q qs =>
      simp only [bxor, List.zipWith_cons_cons]
      rw [← Nat.xor_assoc, Nat.xor_self, Nat.zero_xor]
      have := ih qs (by simpa using h)
      simp only [bxor] at this
      rw [this]

theorem cbcEnc_blocks (E : List Nat → List Nat)
    (hclo : ∀ b, b.length = 16 → ByteOk b → (E b).length = 16 ∧ ByteOk (E b))
    (iv : List Nat) (hiv : iv.length = 16 ∧ ByteOk iv)
    (bls : List (List Nat)) (hbls : ∀ b ∈ bls, b.length = 16 ∧ ByteOk b) :
    ∀ c ∈ cbcEnc E iv bls, c.length = 16 ∧ ByteOk c := by
  induction bls generalizing iv with
  | nil => intro c hc; rw [cbcEnc] at hc; simp at hc
  | cons b bs ih =>
    intro c hc
    simp only [cbcEnc] at hc
    have hb := hbls b (by simp)
    have hxb : (bxor iv b).length = 16 ∧ ByteOk (bxor iv b) := by
      refine ⟨?_, byteOk_bxor _ _ hiv.2 hb.2⟩
      rw [bxor_length, hiv.1, hb.1]
      simp
    have hEb := hclo _ hxb.1 hxb.2
    rcases List.mem_cons.mp hc with rfl | hc
    · exact hEb
    · exact ih _ hEb (fun u hu => hbls u (by simp [hu])) c hc

theorem cbcDec_cbcEnc (E D : List Nat → List Nat)
    (hinv : ∀ b, b.length = 16 → ByteOk b → D (E b) = b)
    (hclo : ∀ b, b.length = 16 → ByteOk b → (E b).length = 16 ∧ ByteOk (E b))
    (iv : List Nat) (hiv : iv.length = 16 ∧ ByteOk iv)
    (bls : List (List Nat)) (hbls : ∀ b ∈ bls, b.length = 16 ∧ ByteOk b) :
    cbcDec D iv (cbcEnc E iv bls) = bls := by
  induction bls generalizing iv with
  | nil => rw [cbcEnc, cbcDec]
  | cons b bs ih =>
    have hb := hbls b (by simp)
    have hxb : (bxor iv b).length = 16 ∧ ByteOk (bxor iv b) := by
      refine ⟨?_, byteOk_bxor _ _ hiv.2 hb.2⟩
      rw [bxor_length, hiv.1, hb.1]
      simp
    simp only [cbcEnc, cbcDec]
    rw [hinv _ hxb.1 hxb.2, bxor_cancel iv b (by omega),
      ih _ (hclo _ hxb.1 hxb.2) (fun u hu => hbls u (by simp [hu]))]

theorem flatten_length_16 (bls : List (List Nat)) (h : ∀ b ∈ bls, b.length = 16) :
    bls.flatten.length = 16 * bls.length := by
  induction bls with
  | nil => simp
  | cons b bs ih =>
    rw [List.flatten_cons, List.length_append, h b (by simp),
      ih (fun u hu => h u (by simp [hu])), List.length_cons]
    ring

theorem byteOk_flatten (bls : List (List Nat)) (h : ∀ b ∈ bls, ByteOk b) :
    ByteOk bls.flatten := by
  intro x hx
  rw [List.mem_flatten] at hx
  obtain ⟨b, hb, hxb⟩ := hx
  exact h b hb x hxb

/-! ## Round-trip of the AES layer -/

theorem stringData_mk (l : List Char) : (String.mk l).data = l := rfl

theorem stringMk_data (s : String) : String.mk s.data = s := rfl

theorem byteOk_saltedMagic : ByteOk saltedMagic := by
  intro x hx
  unfold saltedMagic at hx
  simp only [List.mem_cons, List.not_mem_nil, or_false] at hx
  rcases hx with rfl | rfl | rfl | rfl | rfl | rfl | rfl | rfl <;> omega

theorem cbcCt_blocks (C : EvpCipher) (hC : C.Lawful) (salt : List Nat) (msg : String) :
    ∀ c ∈ cbcEnc (C.encBlock salt) (C.iv salt) (chunks16 (pkcs7Pad (utf8Encode msg))),
      c.length = 16 ∧ ByteOk c := by
  obtain ⟨hinv, hclo, hiv⟩ := hC
  exact cbcEnc_blocks _ (hclo salt) _ (hiv salt) _
    (chunks16_blocks _ (pkcs7Pad_length _).1 (byteOk_pkcs7Pad _ (byteOk_utf8Encode msg)))

theorem encBytes_byteOk (C : EvpCipher) (hC : C.Lawful) (salt : List Nat)
    (hsB : ByteOk salt) (msg : String) :
    ByteOk (saltedMagic ++ salt ++
      (cbcEnc (C.encBlock salt) (C.iv salt) (chunks16 (pkcs7Pad (utf8Encode msg)))).flatten) := by
  intro x hx
  simp only [List.append_assoc, List.mem_append] at hx
  rcases hx with hx | hx | hx
  · exact byteOk_saltedMagic x hx
  · exact hsB x hx
  · exact byteOk_flatten _ (fun b hb => (cbcCt_blocks C hC salt msg b hb).2) x hx

theorem aesDecrypt_of_parse (C : EvpCipher) (hC : C.Lawful) (salt : List Nat)
    (hs8 : salt.length = 8) (msg : String) (blob : String)
    (hparse : b64Parse blob.data = saltedMagic ++ salt ++
      (cbcEnc (C.encBlock salt) (C.iv salt)
        (chunks16 (pkcs7Pad (utf8Encode msg)))).flatten) :
    aesDecrypt C blob = some msg := by
  obtain ⟨hinv, hclo, hiv⟩ := hC
  have hptB : ByteOk (pkcs7Pad (utf8Encode msg)) :=
    byteOk_pkcs7Pad _ (byteOk_utf8Encode msg)
  have hptlen := pkcs7Pad_length (utf8Encode msg)
  have hblocks := chunks16_blocks _ hptlen.1 hptB
  have hclsB : ∀ c ∈ cbcEnc (C.encBlock salt) (C.iv salt)
      (chunks16 (pkcs7Pad (utf8Encode msg))), c.length = 16 ∧ ByteOk c :=
    cbcEnc_blocks _ (hclo salt) _ (hiv salt) _ hblocks
  have hctlen : (cbcEnc (C.encBlock salt) (C.iv salt)
      (chunks16 (pkcs7Pad (utf8Encode msg)))).flatten.length =
      16 * (cbcEnc (C.encBlock salt) (C.iv salt)
        (chunks16 (pkcs7Pad (utf8Encode msg)))).length :=
    flatten_length_16 _ (fun b hb => (hclsB b hb).1)
  set ct := (cbcEnc (C.encBlock salt) (C.iv salt)
      (chunks16 (pkcs7Pad (utf8Encode msg)))).flatten with hct
  have htake : (saltedMagic ++ salt ++ ct).take 8 = saltedMagic := by
    rw [List.append_assoc]
    exact List.take_left' rfl
  have hsaltx : ((saltedMagic ++ salt ++ ct).drop 8).take 8 = salt := by
    rw [List.append_assoc, List.drop_left' (by rfl)]
    exact List.take_left' hs8
  have hdrop16 : (saltedMagic ++ salt ++ ct).drop 16 = ct :=
    List.drop_left' (by rw [List.length_append, hs8]; rfl)
  have hlen16 : 16 ≤ (saltedMagic ++ salt ++ ct).length := by
    simp only [List.length_append, hs8]
    have : saltedMagic.length = 8 := rfl
    omega
  unfold aesDecrypt
  simp only [hparse, hsaltx, hdrop16]
  rw [if_pos ⟨htake, hlen16⟩, if_pos (by rw [hctlen]; omega)]
  rw [chunks16_flatten_blocks _ (fun b hb => (hclsB b hb).1),
    cbcDec_cbcEnc _ _ (hinv salt) (hclo salt) _ (hiv salt) _ hblocks,
    chunks16_flatten, pkcs7Unpad_pad, utf8Decode_encode]

theorem aesDecrypt_encrypt (C : EvpCipher) (hC : C.Lawful) (salt : List Nat)
    (hs8 : salt.length = 8) (hsB : ByteOk salt) (msg : String) :
    aesDecrypt C (aesEncrypt C salt msg) = some msg := by
  apply aesDecrypt_of_parse C hC salt hs8 msg
  unfold aesEncrypt
  rw [stringData_mk]
  exact b64Parse_encode _ (encBytes_byteOk C hC salt hsB msg)

/-! ## Round-trip of the JSON codec: numbers -/

theorem hexVal_hexChar : ∀ m, m < 16 → hexVal (hexChar m) = some m := by decide

theorem digitChar_toNat : ∀ n, n < 10 → (digitChar n).toNat = 48 + n := by decide

theorem isDigit_digitChar : ∀ n, n < 10 → isDigit (digitChar n) = true := by decide

theorem natDigits_ne_nil (n : Nat) : natDigits n ≠ [] := by
  induction n using natDigits.induct with
  | case1 n h => rw [natDigits, if_pos h]; simp
  | case2 n h ih => rw [natDigits, if_neg h]; simp

theorem natDigits_digits (n : Nat) : ∀ c ∈ natDigits n, isDigit c = true := by
  induction n using natDigits.induct with
  | case1 n h =>
    rw [natDigits, if_pos h]
    intro c hc
    rw [List.mem_singleton] at hc
    subst hc
    exact isDigit_digitChar n h
  | case2 n h ih =>
    rw [natDigits, if_neg h]
    intro c hc
    rw [List.mem_append, List.mem_singleton] at hc
    rcases hc with hc | rfl
    · exact ih c hc
    · exact isDigit_digitChar _ (by omega)

theorem digitsToNat_natDigits (n : Nat) : digitsToNat (natDigits n) = n := by
  induction n using natDigits.induct with
  | case1 n h =>
    rw [natDigits, if_pos h]
    show List.foldl _ 0 _ = n
    rw [List.foldl_cons, List.foldl_nil, digitChar_toNat n h]
    omega
  | case2 n h ih =>
    rw [natDigits, if_neg h]
    unfold digitsToNat
    rw [List.foldl_append, List.foldl_cons, List.foldl_nil]
    unfold digitsToNat at ih
    rw [ih, digitChar_toNat _ (by omega)]
    omega

theorem takeWhile_digits (ds rest : List Char) (hds : ∀ c ∈ ds, isDigit c = true)
    (hrest : isDigit (rest.headD ']') = false) :
    (ds ++ rest).takeWhile isDigit = ds ∧ (ds ++ rest).dropWhile isDigit = rest := by
  have htr : rest.takeWhile isDigit = [] := by
    cases rest with
    | nil => rfl
    | cons c t =>
      rw [List.headD_cons] at hrest
      rw [List.takeWhile_cons, if_neg (by simp [hrest])]
  have hdr : rest.dropWhile isDigit = rest := by
    cases rest with
    | nil => rfl
    | cons c t =>
      rw [List.headD_cons] at hrest
      rw [List.dropWhile_cons, if_neg (by simp [hrest])]
  constructor
  · rw [List.takeWhile_append, if_pos (by rw [List.takeWhile_eq_self_iff.mpr hds]), htr,
      List.append_nil]
  · rw [List.dropWhile_append, List.dropWhile_eq_nil_iff.mpr hds]
    simp [hdr]

theorem pNum_intChars (i : Int) (rest : List Char)
    (hrest : isDigit (rest.headD ']') = false) :
    pNum (intChars i ++ rest) = some (Json.num i, rest) := by
  by_cases hi : i < 0
  · have henc : intChars i = '-' :: natDigits i.natAbs := by
      unfold intChars
      rw [if_pos hi]
    obtain ⟨htw, hdw⟩ := takeWhile_digits (natDigits i.natAbs) rest
      (natDigits_digits _) hrest
    rw [henc, List.cons_append]
    unfold pNum
    simp only [eq_self_iff_true, ite_true, htw, hdw]
    rw [if_neg (natDigits_ne_nil i.natAbs), digitsToNat_natDigits]
    have hcast : -(Int.ofNat i.natAbs) = i := by
      have hofn : Int.ofNat i.natAbs = (i.natAbs : Int) := rfl
      rw [hofn]
      omega
    rw [hcast]
  · have henc : intChars i = natDigits i.toNat := by
      unfold intChars
      rw [if_neg hi]
    obtain ⟨c, t, hct⟩ := List.exists_cons_of_ne_nil (natDigits_ne_nil i.toNat)
    have hcd : isDigit c = true := natDigits_digits i.toNat c (by rw [hct]; simp)
    have hcm : c ≠ '-' := by
      intro rfl_h
      rw [rfl_h] at hcd
      exact absurd hcd (by decide)
    obtain ⟨htw, hdw⟩ := takeWhile_digits (natDigits i.toNat) rest
      (natDigits_digits _) hrest
    rw [henc, hct, List.cons_append]
    unfold pNum
    simp only [if_neg hcm]
    rw [← List.cons_append, ← hct, htw, hdw]
    rw [if_neg (natDigits_ne_nil i.toNat), digitsToNat_natDigits]
    have hcast : Int.ofNat i.toNat = i := by
      have hofn : Int.ofNat i.toNat = (i.toNat : Int) := rfl
      rw [hofn]
      omega
    rw [hcast]
    simp

/-! ## Round-trip of the JSON codec: string literals -/

theorem pStrRest_close (rest : List Char) :
    pStrRest ('"' :: rest) = some ([], rest) := by
  rw [pStrRest.eq_def]
  simp

theorem pStrRest_escaped_pair (e d : Char) (he : escDecode e = some d) (he2 : e ≠ 'u')
    (T : List Char) :
    pStrRest ('\\' :: e :: T) = (pStrRest T).map (fun p => (d :: p.1, p.2)) := by
  rw [pStrRest.eq_def]
  simp only [List.headD_cons, List.tail_cons, eq_self_iff_true, ite_true]
  rw [if_neg he2, he]
  simp

theorem pStrRest_escaped_u (c : Char) (hc : c.toNat < 32) (T : List Char) :
    pStrRest ('\\' :: 'u' :: '0' :: '0' ::
        hexChar (c.toNat / 16) :: hexChar (c.toNat % 16) :: T) =
      (pStrRest T).map (fun p => (c :: p.1, p.2)) := by
  rw [pStrRest.eq_def]
  simp only [List.headD_cons, List.tail_cons, List.getD_cons_succ, List.getD_cons_zero,
    eq_self_iff_true, ite_true]
  rw [hexVal_hexChar (c.toNat / 16) (by omega), hexVal_hexChar (c.toNat % 16) (by omega),
    (by decide : hexVal '0' = some 0)]
  simp only [Option.isSome_some, and_self, ite_true, Option.getD_some]
  rw [(by omega : 0 * 4096 + 0 * 256 + c.toNat / 16 * 16 + c.toNat % 16 = c.toNat)]
  rw [if_pos (by omega : c.toNat < 55296 ∨ 57343 < c.toNat)]
  simp only [List.drop_succ_cons, List.drop_zero, Char.ofNat_toNat]
  rw [if_neg (by decide : ¬ ('\\' : Char) = '"')]

theorem pStrRest_plain (c : Char) (h1 : ¬ c = '"') (h2 : ¬ c = '\\')
    (h3 : ¬ c.toNat < 32) (T : List Char) :
    pStrRest (c :: T) = (pStrRest T).map (fun p => (c :: p.1, p.2)) := by
  rw [pStrRest.eq_def]
  simp only [List.headD_cons, List.tail_cons]
  rw [if_neg h1, if_neg h2, if_neg h3]

theorem pStrRest_escape (cs rest : List Char) :
    pStrRest ((cs.map escapeChar).flatten ++ '"' :: rest) = some (cs, rest) := by
  induction cs with
  | nil =>
    rw [List.map_nil, List.flatten_nil, List.nil_append]
    exact pStrRest_close rest
  | cons c cs ih =>
    rw [List.map_cons, List.flatten_cons, List.append_assoc]
    by_cases h1 : c = '"'
    · subst h1
      rw [(by decide : escapeChar '"' = ['\\', '"']), List.cons_append, List.cons_append,
        List.nil_append, pStrRest_escaped_pair '"' '"' (by decide) (by decide), ih,
        Option.map_some']
    · by_cases h2 : c = '\\'
      · subst h2
        rw [(by decide : escapeChar '\\' = ['\\', '\\']), List.cons_append, List.cons_append,
          List.nil_append, pStrRest_escaped_pair '\\' '\\' (by decide) (by decide), ih,
          Option.map_some']
      · by_cases h3 : c = '\n'
        · subst h3
          rw [(by decide : escapeChar '\n' = ['\\', 'n']), List.cons_append, List.cons_append,
            List.nil_append, pStrRest_escaped_pair 'n' '\n' (by decide) (by decide), ih,
            Option.map_some']
        · by_cases h4 : c = '\r'
          · subst h4
            rw [(by decide : escapeChar '\r' = ['\\', 'r']), List.cons_append,
              List.cons_append, List.nil_append,
              pStrRest_escaped_pair 'r' '\r' (by decide) (by decide), ih, Option.map_some']
          · by_cases h5 : c = '\t'
            · subst h5
              rw [(by decide : escapeChar '\t' = ['\\', 't']), List.cons_append,
                List.cons_append, List.nil_append,
                pStrRest_escaped_pair 't' '\t' (by decide) (by decide), ih, Option.map_some']
            · by_cases h6 : c.toNat = 8
              · have hc : c = Char.ofNat 8 := by
                  rw [← h6, Char.ofNat_toNat]
                subst hc
                rw [(by decide : escapeChar (Char.ofNat 8) = ['\\', 'b']), List.cons_append,
                  List.cons_append, List.nil_append,
                  pStrRest_escaped_pair 'b' (Char.ofNat 8) (by decide) (by decide), ih,
                  Option.map_some']
              · by_cases h7 : c.toNat = 12
                · have hc : c = Char.ofNat 12 := by
                    rw [← h7, Char.ofNat_toNat]
                  subst hc
                  rw [(by decide : escapeChar (Char.ofNat 12) = ['\\', 'f']),
                    List.cons_append, List.cons_append, List.nil_append,
                    pStrRest_escaped_pair 'f' (Char.ofNat 12) (by decide) (by decide), ih,
                    Option.map_some']
                · by_cases h8 : c.toNat < 32
                  · have henc : escapeChar c =
                        ['\\', 'u', '0', '0', hexChar (c.toNat / 16), hexChar (c.toNat % 16)] := by
                      unfold escapeChar
                      rw [if_neg h1, if_neg h2, if_neg h3, if_neg h4, if_neg h5,
                        if_neg h6, if_neg h7, if_pos h8]
                    rw [henc]
                    simp only [List.cons_append, List.nil_append]
                    rw [pStrRest_escaped_u c h8, ih, Option.map_some']
                  · have henc : escapeChar c = [c] := by
                      unfold escapeChar
                      rw [if_neg h1, if_neg h2, if_neg h3, if_neg h4, if_neg h5,
                        if_neg h6, if_neg h7, if_neg h8]
                    rw [henc, List.cons_append, List.nil_append,
                      pStrRest_plain c h1 h2 h8, ih, Option.map_some']

/-! ## Heads and lengths of `JSON.stringify` output -/

theorem skipWs_cons (c : Char) (t : List Char) (h : isWs c = false) :
    skipWs (c :: t) = c :: t := by
  unfold skipWs
  rw [List.dropWhile_cons, if_neg (by simp [h])]

theorem isDigit_bounds (c : Char) (h : isDigit c = true) :
    48 ≤ c.toNat ∧ c.toNat ≤ 57 := by
  simpa [isDigit, Bool.and_eq_true, decide_eq_true_eq] using h

theorem jsonChars_shape (v : Json) :
    ∃ c t, jsonChars v = c :: t ∧ isWs c = false ∧ c ≠ ']' ∧ c ≠ '\x7d' ∧ c ≠ 'e' := by
  cases v with
  | null => exact ⟨'n', ['u', 'l', 'l'], by rw [jsonChars], by decide, by decide, by decide,
      by decide⟩
  | bool b =>
    cases b with
    | true => exact ⟨'t', ['r', 'u', 'e'], by rw [jsonChars], by decide, by decide, by decide,
        by decide⟩
    | false => exact ⟨'f', ['a', 'l', 's', 'e'], by rw [jsonChars], by decide, by decide,
        by decide, by decide⟩
  | num i =>
    by_cases hi : i < 0
    · refine ⟨'-', natDigits i.natAbs, ?_, by decide, by decide, by decide, by decide⟩
      rw [jsonChars]
      unfold intChars
      rw [if_pos hi]
    · obtain ⟨c, t, hct⟩ := List.exists_cons_of_ne_nil (natDigits_ne_nil i.toNat)
      have hcd : isDigit c = true := natDigits_digits i.toNat c (by rw [hct]; simp)
      have hb := isDigit_bounds c hcd
      refine ⟨c, t, ?_, ?_, ?_, ?_, ?_⟩
      · rw [jsonChars]
        unfold intChars
        rw [if_neg hi, hct]
      · have h1 : c ≠ ' ' := fun h => by subst h; revert hb; decide
        have h2 : c ≠ '\n' := fun h => by subst h; revert hb; decide
        have h3 : c ≠ '\r' := fun h => by subst h; revert hb; decide
        have h4 : c ≠ '\t' := fun h => by subst h; revert hb; decide
        simp [isWs, h1, h2, h3, h4]
      · exact fun h => by subst h; revert hb; decide
      · exact fun h => by subst h; revert hb; decide
      · exact fun h => by subst h; revert hb; decide
  | str s => exact ⟨'"', strBody s ++ ['"'], by rw [jsonChars], by decide, by decide, by decide,
      by decide⟩
  | arr es =>
    cases es with
    | nil => exact ⟨'[', [']'], by rw [jsonChars], by decide, by decide, by decide, by decide⟩
    | cons e es => exact ⟨'[', jsonChars e ++ jsonCharsArr es, by rw [jsonChars], by decide,
        by decide, by decide, by decide⟩
  | obj fs =>
    cases fs with
    | nil => exact ⟨'\x7b', ['\x7d'], by rw [jsonChars], by decide, by decide, by decide,
        by decide⟩
    | cons f fs => exact ⟨'\x7b', fieldChars f ++ jsonCharsObj fs, by rw [jsonChars], by decide,
        by decide, by decide, by decide⟩

theorem jsonChars_length_pos (v : Json) : 1 ≤ (jsonChars v).length := by
  obtain ⟨c, t, hct, -⟩ := jsonChars_shape v
  rw [hct]
  simp

theorem jsonCharsArr_length_pos (es : List Json) : 1 ≤ (jsonCharsArr es).length := by
  cases es <;> rw [jsonCharsArr] <;> simp

theorem jsonCharsObj_length_pos (fs : List (String × Json)) :
    1 ≤ (jsonCharsObj fs).length := by
  cases fs <;> rw [jsonCharsObj] <;> simp

theorem jsonCharsArr_numOk (es : List Json) (rest : List Char) :
    isDigit ((jsonCharsArr es ++ rest).headD ']') = false := by
  cases es <;> rw [jsonCharsArr] <;> simp [List.headD_cons] <;> decide

theorem jsonCharsObj_numOk (fs : List (String × Json)) (rest : List Char) :
    isDigit ((jsonCharsObj fs ++ rest).headD ']') = false := by
  cases fs <;> rw [jsonCharsObj] <;> simp [List.headD_cons] <;> decide

theorem fieldChars_length (k : String) (v : Json) :
    (fieldChars (k, v)).length = 3 + (strBody k).length + (jsonChars v).length := by
  rw [fieldChars]
  simp only [List.length_cons, List.length_append]
  omega

/-! ## The parser on `stringify` images, production by production -/

theorem pVal_null (g : Nat) (rest : List Char) :
    pVal (g + 1) (jsonChars Json.null ++ rest) = some (Json.null, rest) := by
  rw [jsonChars]
  have hsk : skipWs ('n' :: 'u' :: 'l' :: 'l' :: rest) = 'n' :: 'u' :: 'l' :: 'l' :: rest :=
    skipWs_cons _ _ (by decide)
  rw [pVal.eq_def]
  simp only [List.cons_append, List.nil_append, hsk, List.headD_cons, List.tail_cons,
    eq_self_iff_true, ite_true, List.take_succ_cons, List.take_zero,
    List.drop_succ_cons, List.drop_zero]

theorem pVal_bool (g : Nat) (b : Bool) (rest : List Char) :
    pVal (g + 1) (jsonChars (Json.bool b) ++ rest) = some (Json.bool b, rest) := by
  cases b with
  | true =>
    rw [jsonChars]
    have hsk : skipWs ('t' :: 'r' :: 'u' :: 'e' :: rest) = 't' :: 'r' :: 'u' :: 'e' :: rest :=
      skipWs_cons _ _ (by decide)
    rw [pVal.eq_def]
    simp only [List.cons_append, List.nil_append, hsk, List.headD_cons, List.tail_cons,
      (by decide : ('t' : Char) ≠ 'n'), eq_self_iff_true, ite_true, ite_false,
      List.take_succ_cons, List.take_zero, List.drop_succ_cons, List.drop_zero]
  | false =>
    rw [jsonChars]
    have hsk : skipWs ('f' :: 'a' :: 'l' :: 's' :: 'e' :: rest) =
        'f' :: 'a' :: 'l' :: 's' :: 'e' :: rest :=
      skipWs_cons _ _ (by decide)
    rw [pVal.eq_def]
    simp only [List.cons_append, List.nil_append, hsk, List.headD_cons, List.tail_cons,
      (by decide : ('f' : Char) ≠ 'n'), (by decide : ('f' : Char) ≠ 't'),
      eq_self_iff_true, ite_true, ite_false,
      List.take_succ_cons, List.take_zero, List.drop_succ_cons, List.drop_zero]

theorem pVal_str (g : Nat) (s : String) (rest : List Char) :
    pVal (g + 1) (jsonChars (Json.str s) ++ rest) = some (Json.str s, rest) := by
  rw [jsonChars]
  have hsk : skipWs ('"' :: (strBody s ++ ['"'] ++ rest)) = '"' :: (strBody s ++ ['"'] ++ rest) :=
    skipWs_cons _ _ (by decide)
  rw [pVal.eq_def]
  simp only [List.cons_append, hsk, List.headD_cons, List.tail_cons,
    (by decide : ('"' : Char) ≠ 'n'), (by decide : ('"' : Char) ≠ 't'),
    (by decide : ('"' : Char) ≠ 'f'), eq_self_iff_true, ite_true, ite_false]
  rw [List.append_assoc, List.singleton_append]
  rw [show strBody s = (s.data.map escapeChar).flatten from rfl, pStrRest_escape s.data rest]
  simp [stringMk_data]

theorem pVal_arr_nil (g : Nat) (rest : List Char) :
    pVal (g + 1) (jsonChars (Json.arr []) ++ rest) = some (Json.arr [], rest) := by
  rw [jsonChars]
  have hsk : skipWs ('[' :: ']' :: rest) = '[' :: ']' :: rest := skipWs_cons _ _ (by decide)
  have hsk2 : skipWs (']' :: rest) = ']' :: rest := skipWs_cons _ _ (by decide)
  rw [pVal.eq_def]
  simp only [List.cons_append, List.nil_append, hsk, hsk2, List.headD_cons, List.tail_cons,
    (by decide : ('[' : Char) ≠ 'n'), (by decide : ('[' : Char) ≠ 't'),
    (by decide : ('[' : Char) ≠ 'f'), (by decide : ('[' : Char) ≠ '"'),
    eq_self_iff_true, ite_true, ite_false]

theorem pVal_obj_nil (g : Nat) (rest : List Char) :
    pVal (g + 1) (jsonChars (Json.obj []) ++ rest) = some (Json.obj [], rest) := by
  rw [jsonChars]
  have hsk : skipWs ('\x7b' :: '\x7d' :: rest) = '\x7b' :: '\x7d' :: rest :=
    skipWs_cons _ _ (by decide)
  have hsk2 : skipWs ('\x7d' :: rest) = '\x7d' :: rest := skipWs_cons _ _ (by decide)
  rw [pVal.eq_def]
  simp only [List.cons_append, List.nil_append, hsk, hsk2, List.headD_cons, List.tail_cons,
    (by decide : ('\x7b' : Char) ≠ 'n'), (by decide : ('\x7b' : Char) ≠ 't'),
    (by decide : ('\x7b' : Char) ≠ 'f'), (by decide : ('\x7b' : Char) ≠ '"'),
    (by decide : ('\x7b' : Char) ≠ '['),
    eq_self_iff_true, ite_true, ite_false]

theorem isWs_false_of_digit (c : Char) (h : isDigit c = true) : isWs c = false := by
  have hb := isDigit_bounds c h
  have h1 : c ≠ ' ' := fun hh => by subst hh; revert hb; decide
  have h2 : c ≠ '\n' := fun hh => by subst hh; revert hb; decide
  have h3 : c ≠ '\r' := fun hh => by subst hh; revert hb; decide
  have h4 : c ≠ '\t' := fun hh => by subst hh; revert hb; decide
  simp [isWs, h1, h2, h3, h4]

theorem digit_ne_keyword (c : Char) (h : isDigit c = true) :
    c ≠ 'n' ∧ c ≠ 't' ∧ c ≠ 'f' ∧ c ≠ '"' ∧ c ≠ '[' ∧ c ≠ '\x7b' := by
  have hb := isDigit_bounds c h
  refine ⟨?_, ?_, ?_, ?_, ?_, ?_⟩ <;> exact fun hh => by subst hh; revert hb; decide

theorem pVal_num (g : Nat) (i : Int) (rest : List Char)
    (hrest : isDigit (rest.headD ']') = false) :
    pVal (g + 1) (jsonChars (Json.num i) ++ rest) = some (Json.num i, rest) := by
  rw [jsonChars]
  by_cases hi : i < 0
  · have henc : intChars i = '-' :: natDigits i.natAbs := by
      unfold intChars
      rw [if_pos hi]
    rw [henc, List.cons_append]
    have hsk : skipWs ('-' :: (natDigits i.natAbs ++ rest)) =
        '-' :: (natDigits i.natAbs ++ rest) := skipWs_cons _ _ (by decide)
    rw [pVal.eq_def]
    simp only [hsk, List.headD_cons, List.tail_cons,
      (by decide : ('-' : Char) ≠ 'n'), (by decide : ('-' : Char) ≠ 't'),
      (by decide : ('-' : Char) ≠ 'f'), (by decide : ('-' : Char) ≠ '"'),
      (by decide : ('-' : Char) ≠ '['), (by decide : ('-' : Char) ≠ '\x7b'),
      eq_self_iff_true, true_or, ite_true, ite_false]
    rw [← List.cons_append, ← henc]
    exact pNum_intChars i rest hrest
  · have henc : intChars i = natDigits i.toNat := by
      unfold intChars
      rw [if_neg hi]
    obtain ⟨c, t, hct⟩ := List.exists_cons_of_ne_nil (natDigits_ne_nil i.toNat)
    have hcd : isDigit c = true := natDigits_digits i.toNat c (by rw [hct]; simp)
    obtain ⟨hn1, hn2, hn3, hn4, hn5, hn6⟩ := digit_ne_keyword c hcd
    have hsk : skipWs (c :: (t ++ rest)) = c :: (t ++ rest) :=
      skipWs_cons _ _ (isWs_false_of_digit c hcd)
    rw [henc, hct, List.cons_append, pVal.eq_def]
    simp only [hsk, List.headD_cons, List.tail_cons, hn1, hn2, hn3, hn4, hn5, hn6,
      hcd, or_true, ite_true, ite_false]
    rw [← List.cons_append, ← hct, ← henc]
    exact pNum_intChars i rest hrest

theorem pVal_arr_cons (g : Nat) (e : Json) (es : List Json) (rest : List Char)
    (hQ : pElems g (jsonChars e ++ jsonCharsArr es ++ rest) = some (e :: es, rest)) :
    pVal (g + 1) (jsonChars (Json.arr (e :: es)) ++ rest) = some (Json.arr (e :: es), rest) := by
  rw [jsonChars]
  obtain ⟨c, t, hce, hws, hbr, -, -⟩ := jsonChars_shape e
  have hr : (jsonChars e ++ jsonCharsArr es) ++ rest =
      c :: (t ++ (jsonCharsArr es ++ rest)) := by
    rw [hce]
    simp [List.cons_append, List.append_assoc]
  have hskOuter : skipWs ('[' :: ((jsonChars e ++ jsonCharsArr es) ++ rest)) =
      '[' :: ((jsonChars e ++ jsonCharsArr es) ++ rest) := skipWs_cons _ _ (by decide)
  have hskr : skipWs ((jsonChars e ++ jsonCharsArr es) ++ rest) =
      (jsonChars e ++ jsonCharsArr es) ++ rest := by
    rw [hr]
    exact skipWs_cons _ _ hws
  have hheadr : ((jsonChars e ++ jsonCharsArr es) ++ rest).headD ' ' = c := by
    rw [hr, List.headD_cons]
  rw [List.cons_append, pVal.eq_def]
  simp only [hskOuter, List.headD_cons, List.tail_cons,
    (by decide : ('[' : Char) ≠ 'n'), (by decide : ('[' : Char) ≠ 't'),
    (by decide : ('[' : Char) ≠ 'f'), (by decide : ('[' : Char) ≠ '"'),
    eq_self_iff_true, ite_true, ite_false, hskr, hheadr, hbr]
  rw [hQ]
  simp

theorem pVal_obj_cons (g : Nat) (k : String) (v : Json) (fs : List (String × Json))
    (rest : List Char)
    (hR : pFields g (fieldChars (k, v) ++ jsonCharsObj fs ++ rest) = some ((k, v) :: fs, rest)) :
    pVal (g + 1) (jsonChars (Json.obj ((k, v) :: fs)) ++ rest) =
      some (Json.obj ((k, v) :: fs), rest) := by
  rw [jsonChars]
  have hr : (fieldChars (k, v) ++ jsonCharsObj fs) ++ rest =
      '"' :: ((strBody k ++ ('"' :: ':' :: jsonChars v)) ++ (jsonCharsObj fs ++ rest)) := by
    rw [fieldChars]
    simp [List.cons_append, List.append_assoc]
  have hskOuter : skipWs ('\x7b' :: ((fieldChars (k, v) ++ jsonCharsObj fs) ++ rest)) =
      '\x7b' :: ((fieldChars (k, v) ++ jsonCharsObj fs) ++ rest) := skipWs_cons _ _ (by decide)
  have hskr : skipWs ((fieldChars (k, v) ++ jsonCharsObj fs) ++ rest) =
      (fieldChars (k, v) ++ jsonCharsObj fs) ++ rest := by
    rw [hr]
    exact skipWs_cons _ _ (by decide)
  have hheadr : ((fieldChars (k, v) ++ jsonCharsObj fs) ++ rest).headD ' ' = '"' := by
    rw [hr, List.headD_cons]
  rw [List.cons_append, pVal.eq_def]
  simp only [hskOuter, List.headD_cons, List.tail_cons,
    (by decide : ('\x7b' : Char) ≠ 'n'), (by decide : ('\x7b' : Char) ≠ 't'),
    (by decide : ('\x7b' : Char) ≠ 'f'), (by decide : ('\x7b' : Char) ≠ '"'),
    (by decide : ('\x7b' : Char) ≠ '['),
    eq_self_iff_true, ite_true, ite_false, hskr, hheadr,
    (by decide : ('"' : Char) ≠ '\x7d')]
  rw [hR]
  simp

theorem pElems_nil (g : Nat) (e : Json) (rest : List Char)
    (hP : pVal g (jsonChars e ++ (']' :: rest)) = some (e, ']' :: rest)) :
    pElems (g + 1) (jsonChars e ++ jsonCharsArr [] ++ rest) = some ([e], rest) := by
  have hin : jsonChars e ++ jsonCharsArr [] ++ rest = jsonChars e ++ (']' :: rest) := by
    rw [jsonCharsArr]
    simp [List.append_assoc]
  rw [pElems.eq_def, hin]
  simp only [hP, Option.some_bind]
  have hsk : skipWs (']' :: rest) = ']' :: rest := skipWs_cons _ _ (by decide)
  simp only [hsk, List.headD_cons, List.tail_cons,
    (by decide : (']' : Char) ≠ ','), eq_self_iff_true, ite_true, ite_false]

theorem pElems_cons (g : Nat) (e e2 : Json) (es : List Json) (rest : List Char)
    (hP : pVal g (jsonChars e ++ (jsonCharsArr (e2 :: es) ++ rest)) =
      some (e, jsonCharsArr (e2 :: es) ++ rest))
    (hQ : pElems g (jsonChars e2 ++ jsonCharsArr es ++ rest) = some (e2 :: es, rest)) :
    pElems (g + 1) (jsonChars e ++ jsonCharsArr (e2 :: es) ++ rest) =
      some (e :: e2 :: es, rest) := by
  rw [pElems.eq_def, List.append_assoc]
  simp only [hP, Option.some_bind]
  have hrr : jsonCharsArr (e2 :: es) ++ rest =
      ',' :: ((jsonChars e2 ++ jsonCharsArr es) ++ rest) := by
    rw [jsonCharsArr]
    simp [List.cons_append, List.append_assoc]
  have hsk : skipWs (',' :: ((jsonChars e2 ++ jsonCharsArr es) ++ rest)) =
      ',' :: ((jsonChars e2 ++ jsonCharsArr es) ++ rest) := skipWs_cons _ _ (by decide)
  rw [hrr]
  simp only [hsk, List.headD_cons, List.tail_cons, eq_self_iff_true, ite_true]
  rw [hQ]
  simp

theorem pFields_nil (g : Nat) (k : String) (v : Json) (rest : List Char)
    (hP : pVal g (jsonChars v ++ ('\x7d' :: rest)) = some (v, '\x7d' :: rest)) :
    pFields (g + 1) (fieldChars (k, v) ++ jsonCharsObj [] ++ rest) = some ([(k, v)], rest) := by
  have hin : fieldChars (k, v) ++ jsonCharsObj [] ++ rest =
      '"' :: ((k.data.map escapeChar).flatten ++
        ('"' :: (':' :: (jsonChars v ++ ('\x7d' :: rest))))) := by
    rw [fieldChars, jsonCharsObj]
    rw [show strBody k = (k.data.map escapeChar).flatten from rfl]
    simp [List.cons_append, List.append_assoc]
  rw [pFields.eq_def, hin]
  have hsk : skipWs ('"' :: ((k.data.map escapeChar).flatten ++
      ('"' :: (':' :: (jsonChars v ++ ('\x7d' :: rest)))))) =
      '"' :: ((k.data.map escapeChar).flatten ++
      ('"' :: (':' :: (jsonChars v ++ ('\x7d' :: rest))))) := skipWs_cons _ _ (by decide)
  simp only [hsk, List.headD_cons, List.tail_cons, eq_self_iff_true, ite_true]
  rw [pStrRest_escape k.data (':' :: (jsonChars v ++ ('\x7d' :: rest)))]
  have hsk2 : skipWs (':' :: (jsonChars v ++ ('\x7d' :: rest))) =
      ':' :: (jsonChars v ++ ('\x7d' :: rest)) := skipWs_cons _ _ (by decide)
  simp only [Option.some_bind, hsk2, List.headD_cons, List.tail_cons,
    eq_self_iff_true, ite_true]
  rw [hP]
  have hsk3 : skipWs ('\x7d' :: rest) = '\x7d' :: rest := skipWs_cons _ _ (by decide)
  simp only [Option.some_bind, hsk3, List.headD_cons, List.tail_cons,
    (by decide : ('\x7d' : Char) ≠ ','), eq_self_iff_true, ite_true, ite_false,
    stringMk_data]

theorem pFields_cons (g : Nat) (k : String) (v : Json) (k2 : String) (v2 : Json)
    (fs : List (String × Json)) (rest : List Char)
    (hP : pVal g (jsonChars v ++ (jsonCharsObj ((k2, v2) :: fs) ++ rest)) =
      some (v, jsonCharsObj ((k2, v2) :: fs) ++ rest))
    (hR : pFields g (fieldChars (k2, v2) ++ jsonCharsObj fs ++ rest) =
      some ((k2, v2) :: fs, rest)) :
    pFields (g + 1) (fieldChars (k, v) ++ jsonCharsObj ((k2, v2) :: fs) ++ rest) =
      some ((k, v) :: (k2, v2) :: fs, rest) := by
  have hin : fieldChars (k, v) ++ jsonCharsObj ((k2, v2) :: fs) ++ rest =
      '"' :: ((k.data.map escapeChar).flatten ++
        ('"' :: (':' :: (jsonChars v ++ (jsonCharsObj ((k2, v2) :: fs) ++ rest))))) := by
    rw [fieldChars]
    rw [show strBody k = (k.data.map escapeChar).flatten from rfl]
    simp [List.cons_append, List.append_assoc]
  rw [pFields.eq_def, hin]
  have hsk : skipWs ('"' :: ((k.data.map escapeChar).flatten ++
      ('"' :: (':' :: (jsonChars v ++ (jsonCharsObj ((k2, v2) :: fs) ++ rest)))))) =
      '"' :: ((k.data.map escapeChar).flatten ++
      ('"' :: (':' :: (jsonChars v ++ (jsonCharsObj ((k2, v2) :: fs) ++ rest))))) :=
    skipWs_cons _ _ (by decide)
  simp only [hsk, List.headD_cons, List.tail_cons, eq_self_iff_true, ite_true]
  rw [pStrRest_escape k.data (':' :: (jsonChars v ++ (jsonCharsObj ((k2, v2) :: fs) ++ rest)))]
  have hsk2 : skipWs (':' :: (jsonChars v ++ (jsonCharsObj ((k2, v2) :: fs) ++ rest))) =
      ':' :: (jsonChars v ++ (jsonCharsObj ((k2, v2) :: fs) ++ rest)) :=
    skipWs_cons _ _ (by decide)
  simp only [Option.some_bind, hsk2, List.headD_cons, List.tail_cons,
    eq_self_iff_true, ite_true]
  rw [hP]
  have hrr : jsonCharsObj ((k2, v2) :: fs) ++ rest =
      ',' :: ((fieldChars (k2, v2) ++ jsonCharsObj fs) ++ rest) := by
    rw [jsonCharsObj]
    simp [List.cons_append, List.append_assoc]
  have hsk3 : skipWs (',' :: ((fieldChars (k2, v2) ++ jsonCharsObj fs) ++ rest)) =
      ',' :: ((fieldChars (k2, v2) ++ jsonCharsObj fs) ++ rest) := skipWs_cons _ _ (by decide)
  rw [hrr]
  simp only [Option.some_bind, hsk3, List.headD_cons, List.tail_cons,
    eq_self_iff_true, ite_true]
  rw [hR]
  simp [stringMk_data]

theorem json_parse_mutual (f : Nat) :
    (∀ (v : Json) (rest : List Char), (jsonChars v).length + 1 ≤ f →
        isDigit (rest.headD ']') = false →
        pVal f (jsonChars v ++ rest) = some (v, rest)) ∧
    (∀ (e : Json) (es : List Json) (rest : List Char),
        (jsonChars e).length + (jsonCharsArr es).length + 1 ≤ f →
        pElems f (jsonChars e ++ jsonCharsArr es ++ rest) = some (e :: es, rest)) ∧
    (∀ (k : String) (v : Json) (fs : List (String × Json)) (rest : List Char),
        (jsonChars v).length + (jsonCharsObj fs).length + 1 ≤ f →
        pFields f (fieldChars (k, v) ++ jsonCharsObj fs ++ rest) =
          some ((k, v) :: fs, rest)) := by
  induction f using Nat.strong_induction_on with
  | _ f ih =>
    cases f with
    | zero =>
      refine ⟨?_, ?_, ?_⟩
      · intro v rest hf _
        have := jsonChars_length_pos v
        omega
      · intro e es rest hf
        have := jsonChars_length_pos e
        omega
      · intro k v fs rest hf
        have := jsonChars_length_pos v
        omega
    | succ g =>
      obtain ⟨P, Q, R⟩ := ih g (by omega)
      refine ⟨?_, ?_, ?_⟩
      · intro v rest hf hrest
        cases v with
        | null => exact pVal_null g rest
        | bool b => exact pVal_bool g b rest
        | num i => exact pVal_num g i rest hrest
        | str s => exact pVal_str g s rest
        | arr es =>
          cases es with
          | nil => exact pVal_arr_nil g rest
          | cons e es =>
            apply pVal_arr_cons
            apply Q
            have hl : (jsonChars (Json.arr (e :: es))).length =
                1 + (jsonChars e).length + (jsonCharsArr es).length := by
              rw [jsonChars]
              simp only [List.length_cons, List.length_append]
              omega
            omega
        | obj fs =>
          cases fs with
          | nil => exact pVal_obj_nil g rest
          | cons fkv fs =>
            obtain ⟨k, v'⟩ := fkv
            apply pVal_obj_cons
            apply R
            have hl : (jsonChars (Json.obj ((k, v') :: fs))).length =
                1 + (fieldChars (k, v')).length + (jsonCharsObj fs).length := by
              rw [jsonChars]
              simp only [List.length_cons, List.length_append]
              omega
            have hfl := fieldChars_length k v'
            omega
      · intro e es rest hf
        cases es with
        | nil =>
          apply pElems_nil
          apply P
          · have := jsonCharsArr_length_pos ([] : List Json)
            omega
          · rw [List.headD_cons]
            decide
        | cons e2 es2 =>
          apply pElems_cons
          · apply P
            · have := jsonCharsArr_length_pos (e2 :: es2)
              omega
            · exact jsonCharsArr_numOk (e2 :: es2) rest
          · apply Q
            have hl : (jsonCharsArr (e2 :: es2)).length =
                1 + (jsonChars e2).length + (jsonCharsArr es2).length := by
              rw [jsonCharsArr]
              simp only [List.length_cons, List.length_append]
              omega
            have := jsonChars_length_pos e
            omega
      · intro k v fs rest hf
        cases fs with
        | nil =>
          apply pFields_nil
          apply P
          · have := jsonCharsObj_length_pos ([] : List (String × Json))
            omega
          · rw [List.headD_cons]
            decide
        | cons fkv fs2 =>
          obtain ⟨k2, v2⟩ := fkv
          apply pFields_cons
          · apply P
            · have := jsonCharsObj_length_pos ((k2, v2) :: fs2)
              omega
            · exact jsonCharsObj_numOk ((k2, v2) :: fs2) rest
          · apply R
            have hl : (jsonCharsObj ((k2, v2) :: fs2)).length =
                1 + (fieldChars (k2, v2)).length + (jsonCharsObj fs2).length := by
              rw [jsonCharsObj]
              simp only [List.length_cons, List.length_append]
              omega
            have hfl := fieldChars_length k2 v2
            have := jsonChars_length_pos v
            omega

theorem parse_stringify (v : Json) : JSON.parse (JSON.stringify v) = some v := by
  unfold JSON.parse JSON.stringify
  rw [stringData_mk]
  have hP := (json_parse_mutual ((jsonChars v).length + 1)).1 v []
    (by omega) (by rw [List.headD_nil]; decide)
  rw [List.append_nil] at hP
  rw [hP]
  simp [skipWs]

/-! ## `encryptData` / `decryptData`: round-trip, totality and tampering -/

theorem stringMk_inj (a b : List Char) (h : String.mk a = String.mk b) : a = b := by
  have h2 := congrArg String.data h
  simpa [stringData_mk] using h2

theorem stringify_take10_ne (v : Json) : (JSON.stringify v).data.take 10 ≠ encPrefix := by
  unfold JSON.stringify
  rw [stringData_mk]
  obtain ⟨c, t, hct, -, -, -, hne⟩ := jsonChars_shape v
  rw [hct, List.take_succ_cons]
  unfold encPrefix
  intro hcontra
  rw [List.cons.injEq] at hcontra
  exact hne hcontra.1

theorem decryptData_encryptData (C : EvpCipher) (hC : C.Lawful) (salt : List Nat)
    (hs8 : salt.length = 8) (hsB : ByteOk salt) (encFails : Bool) (v : Json) :
    decryptData C (encryptData C salt encFails v) = some v := by
  cases encFails with
  | true =>
    unfold encryptData
    rw [if_pos rfl]
    unfold decryptData
    rw [if_neg (stringify_take10_ne v)]
    exact parse_stringify v
  | false =>
    unfold encryptData
    rw [if_neg (by simp)]
    unfold decryptData
    rw [stringData_mk]
    have htake : (encPrefix ++ (aesEncrypt C salt (JSON.stringify v)).data).take 10 =
        encPrefix := List.take_left' rfl
    have hdrop : (encPrefix ++ (aesEncrypt C salt (JSON.stringify v)).data).drop 10 =
        (aesEncrypt C salt (JSON.stringify v)).data := List.drop_left' rfl
    rw [if_pos htake, hdrop, stringMk_data, aesDecrypt_encrypt C hC salt hs8 hsB]
    exact parse_stringify v

theorem bumpPenult_append (p l : List Char) (h : 2 ≤ l.length) :
    bumpPenult (p ++ l) = p ++ bumpPenult l := by
  induction p with
  | nil => simp
  | cons a p ih =>
    rw [List.cons_append, bumpPenult_cons a (p ++ l) (by simp only [List.length_append]; omega),
      ih, List.cons_append]

theorem chunks16_single (l : List Nat) (h : l.length = 16) : chunks16 l = [l] := by
  cases l with
  | nil => simp at h
  | cons a rest =>
    rw [chunks16, List.take_of_length_le (by omega), List.drop_eq_nil_of_le (by omega),
      chunks16]

theorem tamper_lowbits (C : EvpCipher) (hC : C.Lawful) (salt : List Nat)
    (hs8 : salt.length = 8) (hsB : ByteOk salt) (v : Json)
    (hsmall : (utf8Encode (JSON.stringify v)).length < 16) :
    tamperPenult (encryptData C salt false v) ≠ encryptData C salt false v ∧
    decryptData C (tamperPenult (encryptData C salt false v)) = some v := by
  have hpad16 : (pkcs7Pad (utf8Encode (JSON.stringify v))).length = 16 := by
    unfold pkcs7Pad
    simp only [List.length_append, List.length_replicate]
    omega
  have hchunks := chunks16_single _ hpad16
  have hclsB := cbcCt_blocks C hC salt (JSON.stringify v)
  have hctB : ByteOk (cbcEnc (C.encBlock salt) (C.iv salt)
      (chunks16 (pkcs7Pad (utf8Encode (JSON.stringify v))))).flatten :=
    byteOk_flatten _ (fun b hb => (hclsB b hb).2)
  have hctlen : (cbcEnc (C.encBlock salt) (C.iv salt)
      (chunks16 (pkcs7Pad (utf8Encode (JSON.stringify v))))).flatten.length = 16 := by
    rw [flatten_length_16 _ (fun b hb => (hclsB b hb).1), hchunks]
    rw [cbcEnc]
    rw [cbcEnc]
    simp
  set ct := (cbcEnc (C.encBlock salt) (C.iv salt)
      (chunks16 (pkcs7Pad (utf8Encode (JSON.stringify v))))).flatten with hct
  have hbytesB : ByteOk (saltedMagic ++ salt ++ ct) :=
    encBytes_byteOk C hC salt hsB (JSON.stringify v)
  have hbyteslen : (saltedMagic ++ salt ++ ct).length % 3 = 2 := by
    simp only [List.length_append, hs8, hctlen]
    rfl
  obtain ⟨hbne, hbparse⟩ := b64_bump (saltedMagic ++ salt ++ ct) hbytesB hbyteslen
  have henc64len : 2 ≤ (b64Encode (saltedMagic ++ salt ++ ct)).length := by
    unfold b64Encode
    have := b64EncBody_length_ge (saltedMagic ++ salt ++ ct) hbyteslen
    simp only [List.length_append]
    omega
  have hblob : encryptData C salt false v =
      String.mk (encPrefix ++ b64Encode (saltedMagic ++ salt ++ ct)) := by
    unfold encryptData aesEncrypt
    rw [if_neg (by simp), stringData_mk, ← hct]
  have htamper : tamperPenult (encryptData C salt false v) =
      String.mk (encPrefix ++ bumpPenult (b64Encode (saltedMagic ++ salt ++ ct))) := by
    rw [hblob]
    unfold tamperPenult
    rw [stringData_mk, bumpPenult_append _ _ henc64len]
  constructor
  · rw [htamper, hblob]
    intro hcontra
    exact hbne (List.append_cancel_left (stringMk_inj _ _ hcontra))
  · rw [htamper]
    unfold decryptData
    rw [stringData_mk]
    have h2le : 2 ≤ (bumpPenult (b64Encode (saltedMagic ++ salt ++ ct))).length := by
      unfold bumpPenult
      rw [List.length_set]
      exact henc64len
    have htake : (encPrefix ++ bumpPenult (b64Encode (saltedMagic ++ salt ++ ct))).take 10 =
        encPrefix := List.take_left' rfl
    have hdrop : (encPrefix ++ bumpPenult (b64Encode (saltedMagic ++ salt ++ ct))).drop 10 =
        bumpPenult (b64Encode (saltedMagic ++ salt ++ ct)) := List.drop_left' rfl
    rw [if_pos htake, hdrop]
    rw [aesDecrypt_of_parse C hC salt hs8 (JSON.stringify v) _
      (by rw [stringData_mk, ← hct]; exact hbparse)]
    exact parse_stringify v

theorem demoCipher_lawful : demoCipher.Lawful := by
  refine ⟨?_, ?_, ?_⟩
  · intro salt b hlen hB
    show (b.map fun x => (x + 37) % 256).map (fun x => (x + 219) % 256) = b
    rw [List.map_map]
    have h : ∀ x ∈ b, ((fun x => (x + 219) % 256) ∘ fun x => (x + 37) % 256) x = id x := by
      intro x hx
      have := hB x hx
      simp only [Function.comp_apply, id_eq]
      omega
    rw [List.map_congr_left h, List.map_id]
  · intro salt b hlen hB
    refine ⟨by simp [demoCipher, hlen], ?_⟩
    intro x hx
    simp only [demoCipher, List.mem_map] at hx
    obtain ⟨y, -, rfl⟩ := hx
    omega
  · intro salt
    refine ⟨by simp [demoCipher], ?_⟩
    intro x hx
    simp only [demoCipher, List.mem_replicate] at hx
    omega

/-- C1: for every lawful cipher, 8-byte salt and JSON value `v`,
decrypting the result of encrypting `v` yields `v` back, on both the
normal encrypted path (`encFails = false`) and the unencrypted fallback
path (`encFails = true`) of `encryptData`. -/
theorem encrypt_decrypt_roundtrip (C : EvpCipher) (hC : C.Lawful) (salt : List Nat)
    (hs8 : salt.length = 8) (hsB : ByteOk salt) (v : Json) :
    decryptData C (encryptData C salt false v) = some v ∧
    decryptData C (encryptData C salt true v) = some v :=
  ⟨decryptData_encryptData C hC salt hs8 hsB false v,
   decryptData_encryptData C hC salt hs8 hsB true v⟩

/-- Witness for C1 at the demo cipher, the all-zero salt and `Json.null`. -/
theorem encrypt_decrypt_roundtrip_witness :
    decryptData demoCipher (encryptData demoCipher demoSalt false Json.null) = some Json.null ∧
    decryptData demoCipher (encryptData demoCipher demoSalt true Json.null) = some Json.null :=
  encrypt_decrypt_roundtrip demoCipher demoCipher_lawful demoSalt rfl
    (by intro x hx; simp only [demoSalt, List.mem_replicate] at hx; omega) Json.null

/-- C8: `decryptData` is total — for every cipher and every input string
it returns `none` or a parsed value (the embedding of "returns null
rather than throwing"); in particular the empty string, a malformed
plain-JSON blob and a tagged blob whose ciphertext fails the
salted-envelope check all yield `none`. -/
theorem decryptData_total (C : EvpCipher) :
    decryptData C (String.mk []) = none ∧
    decryptData C (String.mk ['\x7b']) = none ∧
    decryptData C (String.mk (encPrefix ++ ['?', '?', '?', '?'])) = none ∧
    ∀ s, decryptData C s = none ∨ ∃ j, decryptData C s = some j := by
  refine ⟨rfl, rfl, ?_, ?_⟩
  · unfold decryptData
    rw [if_pos (by decide)]
    rfl
  · intro s
    cases h : decryptData C s with
    | none => exact Or.inl rfl
    | some j => exact Or.inr ⟨j, rfl⟩

/-- C9: refuted — a single-character modification of the ciphertext
portion of an encrypted blob on which `decryptData` returns the original
non-null value `true`, not `null`: when the plaintext pads to one AES
block, the penultimate Base64 character carries only four meaningful bits
and the CryptoJS Base64 parser discards its low two bits, so the
tampered blob decodes to exactly the same bytes and decrypts
successfully. -/
theorem tamper_not_detected :
    tamperPenult (encryptData demoCipher demoSalt false (Json.bool true)) ≠
      encryptData demoCipher demoSalt false (Json.bool true) ∧
    decryptData demoCipher
        (tamperPenult (encryptData demoCipher demoSalt false (Json.bool true))) =
      some (Json.bool true) :=
  tamper_lowbits demoCipher demoCipher_lawful demoSalt rfl
    (by intro x hx; simp only [demoSalt, List.mem_replicate] at hx; omega) (Json.bool true)
    (by decide)
